import Mathlib

/-!
Verification of the Model 100 BASIC tools (`pack_basic.py`, `tokenize_basic.py`).

The Python sources are shallowly embedded: strings become `List Char`,
byte buffers become `List Nat` (bytes are `Nat` values; `bytearray.append`
raising `ValueError` for values above 255 is modelled by an `Option`),
and the index-based `while` loops become recursions on the remaining
character list (with an explicit fuel argument when one loop iteration
consumes more than one character).  Case conversion (`str.upper`) is
modelled at the ASCII level, matching the ASCII BASIC sources the tools
are specified to process.
-/

/-! ## Character helpers -/

/-- The apostrophe character (the BASIC comment introducer). -/
def aposC : Char := Char.ofNat 39

/-- The backslash character. -/
def bslashC : Char := Char.ofNat 92

/-- Python `str` whitespace test, for the whitespace actually occurring in
BASIC sources (space, tab, CR, LF). -/
def pyIsSpace (c : Char) : Bool := c == ' ' || c == '\t' || c == '\n' || c == '\r'

/-- Python `str.rstrip()` (default whitespace). -/
def pyRstrip (l : List Char) : List Char := (l.reverse.dropWhile pyIsSpace).reverse

/-- Python `str.lstrip()` (default whitespace). -/
def pyLstrip (l : List Char) : List Char := l.dropWhile pyIsSpace

/-- Python `str.strip()` (default whitespace). -/
def pyStrip (l : List Char) : List Char := pyRstrip (pyLstrip l)

/-- Python `str.lstrip(' ')` (spaces only), as used in `pack_spaces`. -/
def lstripSpaces (l : List Char) : List Char := l.dropWhile (fun c => c == ' ')

/-- Python `str.upper()`, restricted to ASCII case mapping. -/
def upperL (l : List Char) : List Char := l.map Char.toUpper

/-- Python `ord`. -/
def ordC (c : Char) : Nat := c.toNat

/-! ## The token table of `tokenize_basic.py` (`TOKENS`) -/

/-- Keyword-to-token table from `tokenize_basic.py`, in source order.
The single quote entry (0xFF) is listed last exactly as in the source. -/
def TOKENS : List (String × Nat) :=
  [("END", 0x80), ("FOR", 0x81), ("NEXT", 0x82), ("DATA", 0x83),
   ("INPUT", 0x84), ("DIM", 0x85), ("READ", 0x86), ("LET", 0x87),
   ("GOTO", 0x88), ("RUN", 0x89), ("IF", 0x8A), ("RESTORE", 0x8B),
   ("GOSUB", 0x8C), ("RETURN", 0x8D), ("REM", 0x8E), ("STOP", 0x8F),
   ("WIDTH", 0x90), ("ELSE", 0x91), ("LINE", 0x92), ("EDIT", 0x93),
   ("ERROR", 0x94), ("RESUME", 0x95), ("OUT", 0x96), ("ON", 0x97),
   ("DSKO$", 0x98), ("OPEN", 0x99), ("CLOSE", 0x9A), ("LOAD", 0x9B),
   ("MERGE", 0x9C), ("FILES", 0x9D), ("SAVE", 0x9E), ("LFILES", 0x9F),
   ("LPRINT", 0xA0), ("DEF", 0xA1), ("POKE", 0xA2), ("PRINT", 0xA3),
   ("CONT", 0xA4), ("LIST", 0xA5), ("LLIST", 0xA6), ("CLEAR", 0xA7),
   ("CLOAD", 0xA8), ("CSAVE", 0xA9), ("TIME$", 0xAA), ("DATE$", 0xAB),
   ("DAY$", 0xAC), ("COM", 0xAD), ("MDM", 0xAE), ("KEY", 0xAF),
   ("CLS", 0xB0), ("BEEP", 0xB1), ("SOUND", 0xB2), ("LCOPY", 0xB3),
   ("PSET", 0xB4), ("PRESET", 0xB5), ("MOTOR", 0xB6), ("MAX", 0xB7),
   ("POWER", 0xB8), ("CALL", 0xB9), ("MENU", 0xBA), ("IPL", 0xBB),
   ("NAME", 0xBC), ("KILL", 0xBD), ("SCREEN", 0xBE), ("NEW", 0xBF),
   ("TAB(", 0xC0), ("TO", 0xC1), ("USING", 0xC2), ("VARPTR", 0xC3),
   ("ERL", 0xC4), ("ERR", 0xC5), ("STRING$", 0xC6), ("INSTR", 0xC7),
   ("DSKI$", 0xC8), ("INKEY$", 0xC9), ("CSRLIN", 0xCA), ("OFF", 0xCB),
   ("HIMEM", 0xCC), ("THEN", 0xCD), ("NOT", 0xCE), ("STEP", 0xCF),
   ("+", 0xD0), ("-", 0xD1), ("*", 0xD2), ("/", 0xD3), ("^", 0xD4),
   ("AND", 0xD5), ("OR", 0xD6), ("XOR", 0xD7), ("EQV", 0xD8),
   ("IMP", 0xD9), ("MOD", 0xDA), ("\\", 0xDB), (">", 0xDC), ("=", 0xDD),
   ("<", 0xDE), ("SGN", 0xDF), ("INT", 0xE0), ("ABS", 0xE1),
   ("FRE", 0xE2), ("INP", 0xE3), ("LPOS", 0xE4), ("POS", 0xE5),
   ("SQR", 0xE6), ("RND", 0xE7), ("LOG", 0xE8), ("EXP", 0xE9),
   ("COS", 0xEA), ("SIN", 0xEB), ("TAN", 0xEC), ("ATN", 0xED),
   ("PEEK", 0xEE), ("EOF", 0xEF), ("LOC", 0xF0), ("LOF", 0xF1),
   ("CINT", 0xF2), ("CSNG", 0xF3), ("CDBL", 0xF4), ("FIX", 0xF5),
   ("LEN", 0xF6), ("STR$", 0xF7), ("VAL", 0xF8), ("ASC", 0xF9),
   ("CHR$", 0xFA), ("SPACE$", 0xFB), ("LEFT$", 0xFC), ("RIGHT$", 0xFD),
   ("MID$", 0xFE), ("\x27", 0xFF)]

/-! ## `tokenize_line` -/

/-- Descending keyword-length search of `tokenize_line`: try candidate
lengths `k, k-1, ..., 1` at the head of `rem`, returning the matched
length and token byte.  Mirrors
`for keyword_len in range(min(10, len(ascii_code) - i), 0, -1)`. -/
def kwMatchGo (rem : List Char) : Nat → Option (Nat × Nat)
  | 0 => none
  | k + 1 =>
    match TOKENS.find? (fun e => e.1.data == upperL (rem.take (k + 1))) with
    | some e => some (k + 1, e.2)
    | none => kwMatchGo rem k

/-- Longest-first keyword match at the head of `rem` (`tokenize_line`). -/
def kwMatch (rem : List Char) : Option (Nat × Nat) :=
  kwMatchGo rem (min 10 rem.length)

/-- One `bytearray.append`: fails (Python `ValueError`) for values
above 255.  Only the raw character copies of `tokenize_line` can
receive a value above 255; token bytes and the fixed bytes 0x3A/0x8E/0xFF
are below 256 by construction. -/
def pushByte (b : Nat) (acc : List Nat) : Option (List Nat) :=
  if b < 256 then some (b :: acc) else none

/-- Main loop of `tokenize_line`.  `prev` is the previously consumed
character (`ascii_code[i-1]`), `inStr` the string flag, `rem` the
remaining input (`ascii_code[i:]`), `acc` the output buffer in reverse.
Fuel decreases once per loop iteration; each iteration consumes at least
one input character, so `length + 1` fuel is always enough. -/
def tokLoop : Nat → Option Char → Bool → List Char → List Nat → Option (List Nat)
  | 0, _, _, _, acc => some acc
  | _ + 1, _, _, [], acc => some acc
  | fuel + 1, prev, inStr, c :: rest, acc =>
    if c == '"' && (prev == none || prev != some bslashC) then
      tokLoop fuel (some c) (!inStr) rest (ordC c :: acc)
    else if c == aposC && !inStr then
      some (0xFF :: 0x8E :: 0x3A :: acc)
    else if inStr then
      (pushByte (ordC c) acc).bind (tokLoop fuel (some c) inStr rest)
    else
      match kwMatch (c :: rest) with
      | some (klen, tok) =>
        let acc2 :=
          if upperL ((c :: rest).take klen) == ("ELSE").data then
            match acc with
            | h :: t => if h != 0x3A then tok :: 0x3A :: h :: t else tok :: h :: t
            | [] => tok :: acc
          else tok :: acc
        tokLoop fuel (((c :: rest).take klen).getLast?) inStr ((c :: rest).drop klen) acc2
      | none => (pushByte (ordC c) acc).bind (tokLoop fuel (some c) inStr rest)

/-- The function `tokenize_line` of `tokenize_basic.py`: ASCII code text
to tokenized bytes; `none` models the `ValueError` raised by
`bytearray.append` on a character whose code point exceeds 255. -/
def tokenizeLine (s : List Char) : Option (List Nat) :=
  (tokLoop (s.length + 1) none false s []).map List.reverse

/-! ## `remove_comment` -/

/-- Backtracking step of `remove_comment`: on reaching a comment, pop
trailing spaces from the (reversed) result, then at most one colon.
Mirrors `while result and (result[-1] == ' ' or result[-1] == ':')`
with its early `break` after popping a colon. -/
def popColonSpaces (acc : List Char) : List Char :=
  match acc.dropWhile (fun c => c == ' ') with
  | c :: t => if c == ':' then t else c :: t
  | [] => []

/-- Scanning loop of `remove_comment`; `acc` is the result in reverse. -/
def rcLoop : Bool → List Char → List Char → List Char
  | _, acc, [] => acc
  | inStr, acc, c :: rest =>
    if c == '"' then rcLoop (!inStr) (c :: acc) rest
    else if c == aposC && !inStr then popColonSpaces acc
    else rcLoop inStr (c :: acc) rest

/-- The function `remove_comment` of `pack_basic.py` (note the final
`.rstrip()` on the joined result). -/
def removeComment (l : List Char) : List Char :=
  pyRstrip (rcLoop false [] l).reverse

/-! ## `pack_spaces` -/

/-- Scanning loop of `pack_spaces`; `acc` is the result in reverse. -/
def psLoop : Bool → List Char → List Char → List Char
  | _, acc, [] => acc
  | inStr, acc, c :: rest =>
    if c == '"' then psLoop (!inStr) (c :: acc) rest
    else if inStr then psLoop inStr (c :: acc) rest
    else if c == ' ' then
      let remaining := lstripSpaces rest
      if remaining.isEmpty then psLoop inStr acc rest
      else if ("AND").data.isPrefixOf (upperL remaining) ||
          ("OR").data.isPrefixOf (upperL remaining) then
        if acc.head? != some ' ' then psLoop inStr (' ' :: acc) rest
        else psLoop inStr acc rest
      else psLoop inStr acc rest
    else psLoop inStr (c :: acc) rest

/-- Post-pass of `pack_spaces`: force a space after a leading `DATA`. -/
def dataFix (packed : List Char) : List Char :=
  if ("DATA").data.isPrefixOf (upperL packed) && decide (4 < packed.length) &&
      (packed.get? 4 != some ' ') then
    ("DATA ").data ++ packed.drop 4
  else packed

/-- The function `pack_spaces` of `pack_basic.py`. -/
def packSpaces (l : List Char) : List Char := dataFix (psLoop false [] l).reverse

/-! ## `remove_print_semicolons` -/

/-- Scanning loop of `remove_print_semicolons`; `acc` holds the result in
reverse.  One iteration can consume the five characters of `PRINT`,
hence the fuel argument (length + 1 is always enough). -/
def rpsLoop : Nat → Bool → Bool → List Char → List Char → List Char
  | 0, _, _, acc, _ => acc
  | _ + 1, _, _, acc, [] => acc
  | fuel + 1, inStr, inPrint, acc, c :: rest =>
    if c == '"' then rpsLoop fuel (!inStr) inPrint (c :: acc) rest
    else if inStr then rpsLoop fuel inStr inPrint (c :: acc) rest
    else if ("PRINT").data.isPrefixOf (upperL (c :: rest)) then
      rpsLoop fuel inStr true (((c :: rest).take 5).reverse ++ acc) ((c :: rest).drop 5)
    else if inPrint && c == ':' then rpsLoop fuel inStr false (c :: acc) rest
    else if inPrint && c == ';' then
      let after := lstripSpaces rest
      if after.isEmpty || after.head? == some ':' then
        rpsLoop fuel inStr inPrint (c :: acc) rest
      else
        let resultStr := acc.dropWhile pyIsSpace
        if resultStr.head? == some ')' || resultStr.head? == some '"' then
          if ("CHR$").data.isPrefixOf (upperL after) ||
              ("STRING$").data.isPrefixOf (upperL after) ||
              after.head? == some '"' ||
              ((after.head?.elim false Char.isAlpha) &&
                !(("ELSE").data.isPrefixOf (upperL after))) then
            rpsLoop fuel inStr inPrint acc rest
          else rpsLoop fuel inStr inPrint (c :: acc) rest
        else rpsLoop fuel inStr inPrint (c :: acc) rest
    else rpsLoop fuel inStr inPrint (c :: acc) rest

/-- The function `remove_print_semicolons` of `pack_basic.py`. -/
def removePrintSemicolons (l : List Char) : List Char :=
  (rpsLoop (l.length + 1) false false [] l).reverse

/-! ## `remove_trailing_quote` -/

/-- String-state fold of the `for i, char in enumerate(line)` loop of
`remove_trailing_quote`.  The loop variable `last_open_quote` of the
source does not influence the returned value and is omitted. -/
def quoteParityLoop : Bool → List Char → Bool
  | inStr, [] => inStr
  | inStr, c :: rest =>
    if c == '"' then quoteParityLoop (!inStr) rest else quoteParityLoop inStr rest

/-- The function `remove_trailing_quote` of `pack_basic.py`. -/
def removeTrailingQuote (line : List Char) : List Char :=
  if (pyRstrip line).getLast? == some '"' then
    if quoteParityLoop false line then line
    else (pyRstrip line).dropLast
  else line

/-! ## `find_line_targets` and `update_line_references` -/

/-- Python `int` on a run of decimal digits. -/
def listToNat (ds : List Char) : Nat := ds.foldl (fun a c => 10 * a + (c.toNat - 48)) 0

/-- Python `str` on a natural number (decimal rendering, fuel-based;
`n + 1` fuel is always enough since the argument shrinks by a factor of
ten each step). -/
def natToDigitsGo : Nat → Nat → List Char
  | 0, _ => []
  | fuel + 1, n =>
    if n < 10 then [Char.ofNat (48 + n)]
    else natToDigitsGo fuel (n / 10) ++ [Char.ofNat (48 + n % 10)]

/-- Python `str(n)` for a natural number. -/
def natToDigits (n : Nat) : List Char := natToDigitsGo (n + 1) n

/-- First jump keyword (`GOTO`/`GOSUB`/`THEN`/`ELSE`, in source order)
matching at the head of `rem`, with its length.  Shared scan step of
`find_line_targets` and `update_line_references`. -/
def kwRef (rem : List Char) : Option Nat :=
  if ("GOTO").data.isPrefixOf (upperL rem) then some 4
  else if ("GOSUB").data.isPrefixOf (upperL rem) then some 5
  else if ("THEN").data.isPrefixOf (upperL rem) then some 4
  else if ("ELSE").data.isPrefixOf (upperL rem) then some 4
  else none

/-- Number-run consumer of `find_line_targets`: after a jump keyword,
collect comma/space/tab-separated decimal runs.  Returns the extended
number list and the unconsumed remainder. -/
def numRunLoop : Nat → List Char → List Nat → (List Nat × List Char)
  | 0, rem, ns => (ns, rem)
  | _ + 1, [], ns => (ns, [])
  | fuel + 1, c :: rest, ns =>
    if c.isDigit then
      numRunLoop fuel ((c :: rest).dropWhile Char.isDigit)
        (ns ++ [listToNat ((c :: rest).takeWhile Char.isDigit)])
    else if c == ',' || c == ' ' || c == '\t' then numRunLoop fuel rest ns
    else (ns, c :: rest)

/-- Per-line scanning loop of `find_line_targets`. -/
def ftLoop : Nat → Bool → List Char → List Nat → List Nat
  | 0, _, _, ns => ns
  | _ + 1, _, [], ns => ns
  | fuel + 1, inStr, c :: rest, ns =>
    if c == '"' then ftLoop fuel (!inStr) rest ns
    else if inStr then ftLoop fuel inStr rest ns
    else
      match kwRef (c :: rest) with
      | some klen =>
        let pr := numRunLoop (((c :: rest).drop klen).length + 1) ((c :: rest).drop klen) ns
        ftLoop fuel inStr pr.2 pr.1
      | none => ftLoop fuel inStr rest ns

/-- Jump-target numbers referenced in one code line (the body of the
`for line_num, code in lines` loop of `find_line_targets`). -/
def lineRefNumbers (code : List Char) : List Nat :=
  ftLoop (code.length + 1) false code []

/-- The function `find_line_targets` of `pack_basic.py`.  The Python
set is modelled as the list of all referenced numbers; only membership
in it is ever used. -/
def findLineTargets (lines : List (Nat × List Char)) : List Nat :=
  lines.foldl (fun ts p => ts ++ lineRefNumbers (removeComment p.2)) []

/-- Lookup in the `line_map` dict (keys are unique by construction). -/
def lookupMap (lm : List (Nat × Nat)) (k : Nat) : Option Nat :=
  (lm.find? (fun e => e.1 == k)).map (fun e => e.2)

/-- Operand-rewriting run of `update_line_references`: after a jump
keyword, rewrite each decimal run through the line map (`line_map.get
(old, old)` then `str(...)`), copying comma/space/tab separators.
Returns the extended reversed output and the unconsumed remainder. -/
def refRunLoop : Nat → (Nat → Option Nat) → List Char → List Char → (List Char × List Char)
  | 0, _, acc, rem => (acc, rem)
  | _ + 1, _, acc, [] => (acc, [])
  | fuel + 1, lm, acc, c :: rest =>
    if c.isDigit then
      let oldN := listToNat ((c :: rest).takeWhile Char.isDigit)
      refRunLoop fuel lm ((natToDigits ((lm oldN).getD oldN)).reverse ++ acc)
        ((c :: rest).dropWhile Char.isDigit)
    else if c == ',' || c == ' ' || c == '\t' then refRunLoop fuel lm (c :: acc) rest
    else (acc, c :: rest)

/-- Main loop of `update_line_references`; `acc` is the output in reverse. -/
def ulrLoop : Nat → (Nat → Option Nat) → Bool → List Char → List Char → List Char
  | 0, _, _, acc, _ => acc
  | _ + 1, _, _, acc, [] => acc
  | fuel + 1, lm, inStr, acc, c :: rest =>
    if c == '"' then ulrLoop fuel lm (!inStr) (c :: acc) rest
    else if inStr then ulrLoop fuel lm inStr (c :: acc) rest
    else
      match kwRef (c :: rest) with
      | some klen =>
        let pr := refRunLoop (((c :: rest).drop klen).length + 1) lm
          (((c :: rest).take klen).reverse ++ acc) ((c :: rest).drop klen)
        ulrLoop fuel lm inStr pr.1 pr.2
      | none => ulrLoop fuel lm inStr (c :: acc) rest

/-- The function `update_line_references` of `pack_basic.py`, with the
`line_map` dict abstracted as its lookup function. -/
def updateLineRefs (lm : Nat → Option Nat) (code : List Char) : List Char :=
  (ulrLoop (code.length + 1) lm false [] code).reverse

/-! ## `ends_with_control_flow` -/

/-- Last top-level colon scan of `ends_with_control_flow`
(`for i, char in enumerate(code)` tracking `last_colon`). -/
def lastColonLoop : Bool → Nat → Option Nat → List Char → Option Nat
  | _, _, lc, [] => lc
  | inStr, i, lc, c :: rest =>
    if c == '"' then lastColonLoop (!inStr) (i + 1) lc rest
    else if c == ':' && !inStr then lastColonLoop inStr (i + 1) (some i) rest
    else lastColonLoop inStr (i + 1) lc rest

/-- Inner `THEN` search of `ends_with_control_flow` (the `j` loop).
Returns whether `THEN` was found outside a string, and the final value
of the shared `in_string` flag (which the source leaks back into the
outer loop when nothing is found). -/
def innerThenScan : Bool → List Char → Bool × Bool
  | s, [] => (false, s)
  | s, c :: rest =>
    if c == '"' then innerThenScan (!s) rest
    else if !s && ("THEN").data.isPrefixOf (upperL (c :: rest)) then (true, s)
    else innerThenScan s rest

/-- Outer `IF` scan of `ends_with_control_flow` (the `i` loop).  After a
failed inner search the outer loop continues one character further with
the `in_string` flag as the inner loop left it. -/
def ifThenScan : Bool → List Char → Bool
  | _, [] => false
  | s, c :: rest =>
    if c == '"' then ifThenScan (!s) rest
    else if !s && ("IF").data.isPrefixOf (upperL (c :: rest)) then
      match innerThenScan s (rest.drop 1) with
      | (true, _) => true
      | (false, s2) => ifThenScan s2 rest
    else ifThenScan s rest

/-- The function `ends_with_control_flow` of `pack_basic.py`
(the control-flow classifier). -/
def endsWithControlFlow (code0 : List Char) : Bool :=
  let code := pyRstrip code0
  if code.isEmpty then false
  else
    let lastStmt :=
      match lastColonLoop false 0 none code with
      | some k => pyStrip (code.drop (k + 1))
      | none => pyStrip code
    let lastU := upperL lastStmt
    if lastU == ("RETURN").data || lastU == ("END").data || lastU == ("STOP").data then
      true
    else if ("GOTO").data.isPrefixOf lastU &&
        ((pyStrip (lastStmt.drop 4)).head?.elim false Char.isDigit) then
      true
    else ifThenScan false code

/-! ## `merge_lines` -/

/-- Separator-aware join of `flush_current`: the first segment verbatim,
each following segment prefixed with a space-colon after a `DATA`
segment and a bare colon otherwise. -/
def joinSegGo : List Char → List (List Char) → List Char
  | _, [] => []
  | prev, seg :: rest =>
    (if ("DATA").data.isPrefixOf (upperL prev) then (" :").data else (":").data) ++
      seg ++ joinSegGo seg rest

/-- Joined text of one accumulated segment list (`combined` in
`flush_current`). -/
def joinSeg : List (List Char) → List Char
  | [] => []
  | seg :: rest => seg ++ joinSegGo seg rest

/-- The helper `flush_current` of `merge_lines`: emit the accumulated
codes as one merged line if the joined text fits the length budget,
otherwise the first piece under the anchor number and every further
piece as its own `None`-numbered line.  The length bound is computed
over the integers, as in Python, since it can go negative. -/
def flushCurrent (maxLen : Nat) (startLine : Nat) (cur : List (List Char)) :
    List (Option Nat × List Char) :=
  match cur with
  | [] => []
  | first :: rest =>
    let combined := joinSeg cur
    let maxCode : Int := (maxLen : Int) - ((natToDigits startLine).length : Int) - 1
    if (combined.length : Int) ≤ maxCode then [(some startLine, combined)]
    else (some startLine, first) :: rest.map (fun seg => ((none : Option Nat), seg))

/-- Instrumented variant of `flush_current` that keeps each emitted
line as its list of source pieces instead of the joined text. -/
def flushSegs (maxLen : Nat) (startLine : Nat) (cur : List (List Char)) :
    List (Option Nat × List (List Char)) :=
  match cur with
  | [] => []
  | first :: rest =>
    let combined := joinSeg cur
    let maxCode : Int := (maxLen : Int) - ((natToDigits startLine).length : Int) - 1
    if (combined.length : Int) ≤ maxCode then [(some startLine, cur)]
    else (some startLine, [first]) :: rest.map (fun seg => ((none : Option Nat), [seg]))

/-- Main loop of `merge_lines`.  State: current anchor
(`current_start_line`), accumulated codes (`current_code`), the
`prevent_merge` flag (set from `ends_with_control_flow` of the previous
source line), and the emitted lines so far. -/
def mergeLoop (maxLen : Nat) (targets : List Nat) :
    List (Nat × List Char) → Option Nat → List (List Char) → Bool →
    List (Option Nat × List Char) → List (Option Nat × List Char)
  | [], curStart, curCode, _, out =>
    match curStart with
    | some s => out ++ flushCurrent maxLen s curCode
    | none => out
  | (lineNum, code) :: rest, curStart, curCode, prevent, out =>
    if targets.contains lineNum || prevent then
      let out2 := match curStart with
        | some s => out ++ flushCurrent maxLen s curCode
        | none => out
      mergeLoop maxLen targets rest (some lineNum) [code] (endsWithControlFlow code) out2
    else
      let start2 := match curStart with | some s => s | none => lineNum
      let separator :=
        if curCode.getLast?.elim false (fun s => ("DATA").data.isPrefixOf (upperL s)) then
          (" :").data
        else (":").data
      let testLen := (curCode.map List.length).sum + separator.length * curCode.length +
        code.length
      let maxCode : Int := (maxLen : Int) - ((natToDigits start2).length : Int) - 1
      if (testLen : Int) ≤ maxCode then
        mergeLoop maxLen targets rest (some start2) (curCode ++ [code])
          (endsWithControlFlow code) out
      else
        mergeLoop maxLen targets rest (some lineNum) [code] (endsWithControlFlow code)
          (out ++ flushCurrent maxLen start2 curCode)

/-- The function `merge_lines` of `pack_basic.py`. -/
def mergeLines (lines : List (Nat × List Char)) (targets : List Nat)
    (maxLen : Nat) : List (Option Nat × List Char) :=
  mergeLoop maxLen targets lines none [] false []

/-- Instrumented variant of the `merge_lines` loop producing, for each
emitted physical line, the list of source code pieces it was built
from.  Its branch structure is identical to `mergeLoop`; the
correspondence is proved below. -/
def mergeSegsLoop (maxLen : Nat) (targets : List Nat) :
    List (Nat × List Char) → Option Nat → List (List Char) → Bool →
    List (Option Nat × List (List Char)) → List (Option Nat × List (List Char))
  | [], curStart, curCode, _, out =>
    match curStart with
    | some s => out ++ flushSegs maxLen s curCode
    | none => out
  | (lineNum, code) :: rest, curStart, curCode, prevent, out =>
    if targets.contains lineNum || prevent then
      let out2 := match curStart with
        | some s => out ++ flushSegs maxLen s curCode
        | none => out
      mergeSegsLoop maxLen targets rest (some lineNum) [code] (endsWithControlFlow code) out2
    else
      let start2 := match curStart with | some s => s | none => lineNum
      let separator :=
        if curCode.getLast?.elim false (fun s => ("DATA").data.isPrefixOf (upperL s)) then
          (" :").data
        else (":").data
      let testLen := (curCode.map List.length).sum + separator.length * curCode.length +
        code.length
      let maxCode : Int := (maxLen : Int) - ((natToDigits start2).length : Int) - 1
      if (testLen : Int) ≤ maxCode then
        mergeSegsLoop maxLen targets rest (some start2) (curCode ++ [code])
          (endsWithControlFlow code) out
      else
        mergeSegsLoop maxLen targets rest (some lineNum) [code] (endsWithControlFlow code)
          (out ++ flushSegs maxLen start2 curCode)

/-- Piece-level view of `merge_lines`. -/
def mergeSegs (lines : List (Nat × List Char)) (targets : List Nat)
    (maxLen : Nat) : List (Option Nat × List (List Char)) :=
  mergeSegsLoop maxLen targets lines none [] false []

/-! ## `pack_basic_file` (from parsed lines to written lines) -/

/-- Per-line packing of `pack_basic_file` (comment removal, space
packing, PRINT-semicolon removal). -/
def packLine (code : List Char) : List Char :=
  removePrintSemicolons (packSpaces (removeComment code))

/-- Construction of `line_map`: one new number per merged line starting
at 1; anchors (non-`None` old numbers) not yet present are recorded. -/
def buildLineMapLoop : List (Option Nat × List Char) → Nat → List (Nat × Nat) →
    List (Nat × Nat)
  | [], _, lm => lm
  | (oldNum, _) :: rest, newNum, lm =>
    let lm2 := match oldNum with
      | some o => if (lookupMap lm o).isNone then lm ++ [(o, newNum)] else lm
      | none => lm
    buildLineMapLoop rest (newNum + 1) lm2

/-- The `line_map` built by `pack_basic_file` from the merged lines. -/
def buildLineMap (merged : List (Option Nat × List Char)) : List (Nat × Nat) :=
  buildLineMapLoop merged 1 []

/-- Final numbering loop of `pack_basic_file`: rewrite references and
assign new numbers (`line_map[old]` for an anchor — always present by
construction of the map — and the running counter for a `None` line). -/
def finalNumberLoop (lm : List (Nat × Nat)) :
    List (Option Nat × List Char) → Nat → List (Nat × List Char)
  | [], _ => []
  | (oldNum, code) :: rest, currentNew =>
    let updated := updateLineRefs (lookupMap lm) code
    let newNum := match oldNum with
      | some o => (lookupMap lm o).getD 0
      | none => currentNew
    (newNum, updated) :: finalNumberLoop lm rest (newNum + 1)

/-- The processing pipeline of `pack_basic_file` from the parsed
`(number, code)` list to the `(number, code)` pairs written to the
output file (each written code first passes `remove_trailing_quote`). -/
def packPipeline (lines : List (Nat × List Char)) : List (Nat × List Char) :=
  let packed := lines.map (fun p => (p.1, packLine p.2))
  let targets := findLineTargets packed
  let merged := mergeLines packed targets 255
  let lm := buildLineMap merged
  (finalNumberLoop lm merged 1).map (fun p => (p.1, removeTrailingQuote p.2))

/-! ## `create_tokenized_file` (binary encoder) -/

/-- Little-endian 16-bit serialization as written by
`create_tokenized_file` (`value & 0xFF`, `(value >> 8) & 0xFF`). -/
def u16LE (v : Nat) : List Nat := [v % 256, v / 256 % 256]

/-- First loop of `create_tokenized_file`: the start address of every
record (`line_addresses`), each record taking `2 + 2 + len + 1` bytes. -/
def lineAddresses (a : Nat) : List (Nat × List Nat) → List Nat
  | [] => []
  | (_, p) :: rest => a :: lineAddresses (a + (2 + 2 + p.length + 1)) rest

/-- Final value of `temp_address`: one byte past the end of the last
record. -/
def endAddress (base : Nat) (ls : List (Nat × List Nat)) : Nat :=
  base + (ls.map (fun p => 2 + 2 + p.2.length + 1)).sum

/-- Second loop of `create_tokenized_file`: write each record, taking
the successor address from the address list shifted by one record
(`line_addresses[i + 1]`), or the end address for the last record. -/
def writeRecords (endA : Nat) : List (Nat × List Nat) → List Nat → List Nat
  | [], _ => []
  | (n, p) :: rest, addrsNext =>
    let next := addrsNext.head?.getD endA
    u16LE next ++ u16LE n ++ p ++ [0] ++ writeRecords endA rest addrsNext.tail

/-- The output bytes built by `create_tokenized_file` from the
tokenized `(line number, payload)` list and the base address. -/
def createTokenizedData (base : Nat) (ls : List (Nat × List Nat)) : List Nat :=
  writeRecords (endAddress base ls) ls (lineAddresses base ls).tail

/-- One-pass form of the encoder: each record carries the address just
past itself.  Proved equal to `createTokenizedData` below. -/
def encodeLines (addr : Nat) : List (Nat × List Nat) → List Nat
  | [] => []
  | (n, p) :: rest =>
    let next := addr + 2 + 2 + p.length + 1
    u16LE next ++ u16LE n ++ p ++ [0] ++ encodeLines next rest

/-- Decoder following the record formula of the specification: read the
u16 successor address, recover the payload length from it (successor
minus record address minus the 5 framing bytes), check the 0x00
terminator, and continue at the successor address. -/
def decodeLinesGo : Nat → Nat → List Nat → Option (List (Nat × List Nat))
  | _, _, [] => some []
  | fuel + 1, addr, b0 :: b1 :: l0 :: l1 :: rest =>
    let next := b0 + 256 * b1
    let plen := next - addr - 5
    if plen + 1 ≤ rest.length ∧ rest.get? plen = some 0 then
      (decodeLinesGo fuel next (rest.drop (plen + 1))).map
        (fun tl => (l0 + 256 * l1, rest.take plen) :: tl)
    else none
  | _ + 1, _, _ => none
  | 0, _, _ => none

/-- Decode a record stream laid out at `base`. -/
def decodeLines (base : Nat) (bytes : List Nat) : Option (List (Nat × List Nat)) :=
  decodeLinesGo (bytes.length + 1) base bytes

/-- Record size (`5 + payload length`) of one tokenized line. -/
def recSize (p : Nat × List Nat) : Nat := 5 + p.2.length

/-- Total size of the first `k` records. -/
def prefixSize (ls : List (Nat × List Nat)) (k : Nat) : Nat :=
  ((ls.take k).map recSize).sum

/-- The line loop of `create_tokenized_file`: a line whose
tokenization raises is skipped (a warning is printed and no record is
emitted); the remaining lines are encoded. -/
def createTokenizedFile (base : Nat) (lines : List (Nat × List Char)) : List Nat :=
  createTokenizedData base
    (lines.filterMap (fun p => (tokenizeLine p.2).map (fun bs => (p.1, bs))))

/-! ## Specification-side definitions

These definitions follow the wording of the specification and of the
claims; they are compared with the source-derived definitions above. -/

/-- Position `i` of `l` lies outside every string literal exactly when
the number of quotes strictly before it is even. -/
def outsideAt (l : List Char) (i : Nat) : Bool := ((l.take i).count '"') % 2 == 0

/-- Case-insensitive keyword test at a position (spec side). -/
def wordAt (w : List Char) (l : List Char) (i : Nat) : Bool :=
  w.isPrefixOf (upperL (l.drop i))

/-- Spec predicate: the code contains `IF` outside strings together
with a later `THEN` outside strings. -/
def containsIfThen (l : List Char) : Bool :=
  (List.range l.length).any (fun i => outsideAt l i && wordAt ("IF").data l i &&
    (List.range l.length).any (fun j =>
      decide (i < j) && outsideAt l j && wordAt ("THEN").data l j))

/-- Spec-side last statement: the trimmed content after the final
colon lying outside strings (the whole trimmed code when there is no
such colon). -/
def specLastStmt (code : List Char) : List Char :=
  match ((List.range code.length).filter
      (fun i => code.get? i == some ':' && outsideAt code i)).getLast? with
  | some k => pyStrip (code.drop (k + 1))
  | none => pyStrip code

/-- The control-flow classifier property exactly as claim C4 states it:
the last statement is exactly `RETURN`, `END` or `STOP`; or it begins
with `GOTO` immediately followed by a decimal digit; or the code
contains `IF ... THEN` outside strings. -/
def claimControlFlow (code : List Char) : Bool :=
  let ls := specLastStmt code
  let lu := upperL ls
  lu == ("RETURN").data || lu == ("END").data || lu == ("STOP").data ||
    (("GOTO").data.isPrefixOf lu && ((ls.drop 4).head?.elim false Char.isDigit)) ||
    containsIfThen code

/-- The amended classifier property: as claimed, except that the code
is first right-trimmed and the decimal digit may follow `GOTO` after
whitespace (as the code strips it). -/
def amendedControlFlow (code0 : List Char) : Bool :=
  let code := pyRstrip code0
  let ls := specLastStmt code
  let lu := upperL ls
  lu == ("RETURN").data || lu == ("END").data || lu == ("STOP").data ||
    (("GOTO").data.isPrefixOf lu && ((pyStrip (ls.drop 4)).head?.elim false Char.isDigit)) ||
    containsIfThen code

/-- The trailing-quote rule exactly as claim C5 states it: remove the
final quote precisely when it opens a string literal never closed
before end of line (line ends in a quote and the quote count is odd). -/
def claimRemoveTrailingQuote (line : List Char) : List Char :=
  if line.getLast? == some '"' && (line.count '"') % 2 == 1 then line.dropLast else line

/-- The amended trailing-quote rule: remove the final (right-trimmed)
character exactly when it is a quote and the total quote count is even
(the final quote closes a literal); the removal also trims trailing
whitespace; otherwise the line is returned unchanged. -/
def specRemoveTrailingQuote (line : List Char) : List Char :=
  if (pyRstrip line).getLast? == some '"' && (line.count '"') % 2 == 0 then
    (pyRstrip line).dropLast
  else line

/-- Spec-side comment scanner (the specification reads: a quote
toggles literal-string mode; an apostrophe outside an open string
literal begins a comment): index of the first comment apostrophe given
the current string state. -/
def commentIdxGo : Bool → List Char → Option Nat
  | _, [] => none
  | inStr, c :: rest =>
    if c == '"' then (commentIdxGo (!inStr) rest).map (fun i => i + 1)
    else if c == aposC && !inStr then some 0
    else (commentIdxGo inStr rest).map (fun i => i + 1)

/-- Index of the first comment apostrophe (outside every string
literal), if any (spec side). -/
def commentIdx (l : List Char) : Option Nat := commentIdxGo false l

/-- The comment rule exactly as claim C8 states it: drop everything
from the first comment apostrophe on, also removing the entire run of
colons and spaces immediately before it; otherwise the text is kept
verbatim. -/
def claimRemoveComment (l : List Char) : List Char :=
  match commentIdx l with
  | some i => ((l.take i).reverse.dropWhile (fun c => c == ' ' || c == ':')).reverse
  | none => l

/-- The amended comment rule: drop everything from the first comment
apostrophe on, removing the spaces immediately before it and at most
one adjacent colon; the result is right-trimmed (also when no comment
is present). -/
def specRemoveComment (l : List Char) : List Char :=
  match commentIdx l with
  | some i =>
    let k2 := (l.take i).reverse.dropWhile (fun c => c == ' ')
    pyRstrip (if k2.head? == some ':' then k2.tail else k2).reverse
  | none => pyRstrip l

/-- Relative outside test (spec side): position `j` of `l` lies
outside every string literal, given that the scan enters `l` with
string state `s`.  The state at `j` is `s` xor the parity of the quote
count before `j`; outside means that state is false. -/
def outAt (s : Bool) (l : List Char) (j : Nat) : Bool :=
  decide (((l.take j).count '"') % 2 = 1) == s

/-- Relative THEN search (spec side): some position of `l` is outside
strings and carries `THEN`. -/
def specHasThen (s : Bool) (l : List Char) : Bool :=
  (List.range l.length).any (fun j => outAt s l j && wordAt ("THEN").data l j)

/-- Relative IF-with-later-THEN containment (spec side). -/
def containsIfThenRel (s : Bool) (l : List Char) : Bool :=
  (List.range l.length).any (fun i => outAt s l i && wordAt ("IF").data l i &&
    (List.range l.length).any (fun j =>
      decide (i < j) && outAt s l j && wordAt ("THEN").data l j))

/-- Positions of top-level colons given the starting string state
(spec side). -/
def topColons (s : Bool) (l : List Char) : List Nat :=
  (List.range l.length).filter (fun j => l.get? j == some ':' && outAt s l j)

/-- Spec-side operand-run rule of claim C9 (amended wording): after a
jump keyword, each maximal decimal run is looked up in the line map —
if present it becomes the new line number, and if absent (a dangling
reference) it is left numerically unchanged, re-rendered as the
decimal of its own value (leading zeros dropped, no error) — while
comma, space and tab separators are copied; the run ends at the first
other character, which is left to the main scan. -/
def specRefRun : Nat → (Nat → Option Nat) → List Char → (List Char × List Char)
  | 0, _, rem => ([], rem)
  | _ + 1, _, [] => ([], [])
  | fuel + 1, lm, c :: rest =>
    if c.isDigit then
      let v := listToNat ((c :: rest).takeWhile Char.isDigit)
      let out := match lm v with
        | some newN => natToDigits newN
        | none => natToDigits v
      let pr := specRefRun fuel lm ((c :: rest).dropWhile Char.isDigit)
      (out ++ pr.1, pr.2)
    else if c == ',' || c == ' ' || c == '\t' then
      let pr := specRefRun fuel lm rest
      (c :: pr.1, pr.2)
    else ([], c :: rest)

/-- Spec-side reference-fixup scan of claim C9 (amended wording):
quotes toggle string state and are copied; inside strings everything
is copied; outside strings each GOTO/GOSUB/THEN/ELSE keyword is copied
and its operand run rewritten by `specRefRun`; every other character
is copied verbatim. -/
def specULRGo : Nat → (Nat → Option Nat) → Bool → List Char → List Char
  | 0, _, _, _ => []
  | _ + 1, _, _, [] => []
  | fuel + 1, lm, inStr, c :: rest =>
    if c == '"' then c :: specULRGo fuel lm (!inStr) rest
    else if inStr then c :: specULRGo fuel lm inStr rest
    else
      match kwRef (c :: rest) with
      | some klen =>
        let pr := specRefRun (((c :: rest).drop klen).length + 1) lm
          ((c :: rest).drop klen)
        (c :: rest).take klen ++ pr.1 ++ specULRGo fuel lm inStr pr.2
      | none => c :: specULRGo fuel lm inStr rest

/-- The reference-fixup rule of claim C9 (amended wording), whole. -/
def specUpdateLineRefs (lm : Nat → Option Nat) (code : List Char) : List Char :=
  specULRGo (code.length + 1) lm false code

/-! ## Helper lemmas -/

/-- The string-state fold of `remove_trailing_quote` computes the
parity of the quote count. -/
theorem quoteParityLoop_eq (l : List Char) :
    ∀ s : Bool, quoteParityLoop s l = (s != decide ((l.count '"') % 2 = 1)) := by
  induction l with
  | nil => intro s; cases s <;> simp [quoteParityLoop]
  | cons c rest ih =>
    intro s
    by_cases hc : c == '"'
    · have hc2 : c = '"' := by simpa using hc
      rcases Nat.mod_two_eq_zero_or_one (rest.count '"') with h | h <;>
        cases s <;>
        simp [quoteParityLoop, hc2, ih, List.count_cons, h, Nat.add_mod]
    · have hc2 : ¬(c = '"') := by simpa using hc
      rcases Nat.mod_two_eq_zero_or_one (rest.count '"') with h | h <;>
        cases s <;>
        simp [quoteParityLoop, hc2, ih, List.count_cons, h]

/-! ## Claim C5: trailing-quote removal -/

/-- Claim C5 as stated is false: `remove_trailing_quote` removes a
final quote that CLOSES a string literal (input `PRINT""`, even quote
count) and keeps a final quote that opens an unterminated literal
(input `PRINT"`, odd quote count) — the opposite of the claimed
condition in both directions. -/
theorem claim_C5_counterexample :
    removeTrailingQuote ("PRINT\"\"").data ≠ claimRemoveTrailingQuote ("PRINT\"\"").data ∧
    removeTrailingQuote ("PRINT\"").data ≠ claimRemoveTrailingQuote ("PRINT\"").data := by
  decide

/-- Claim C5, amended: the pass removes the line's final
(right-trimmed) character precisely when it is a quote and the line's
total quote count is even — that is, when the final quote closes a
string literal; the removal also drops trailing whitespace, and a final
quote opening an unterminated literal is kept. -/
theorem claim_C5 (line : List Char) :
    removeTrailingQuote line = specRemoveTrailingQuote line := by
  have hq := quoteParityLoop_eq line false
  rcases Nat.mod_two_eq_zero_or_one (line.count '"') with h | h <;>
    simp [removeTrailingQuote, specRemoveTrailingQuote, hq, h]

/-! ## Claim C7: tokenization of comments with and without a space -/

/-- Claim C7 as stated is false: the payload bytes preceding the
comment marker `0x3A 0x8E 0xFF` differ between `PRINT 1 'hi` and
`PRINT 1'hi` — the first carries an extra 0x20 for the space before
the apostrophe. -/
theorem claim_C7_counterexample :
    (tokenizeLine (("PRINT 1 ").data ++ [aposC] ++ ("hi").data)).map
        (fun bs => bs.takeWhile (fun b => b != 0x3A)) ≠
      (tokenizeLine (("PRINT 1").data ++ [aposC] ++ ("hi").data)).map
        (fun bs => bs.takeWhile (fun b => b != 0x3A)) := by
  decide

/-- Claim C7, amended: tokenizing the codes of `10 PRINT 1 'hi` and
`10 PRINT 1'hi` yields payloads that agree except that the variant
with a space carries one extra 0x20 byte immediately before the
`0x3A 0x8E 0xFF` comment sequence. -/
theorem claim_C7 :
    tokenizeLine (("PRINT 1 ").data ++ [aposC] ++ ("hi").data) =
      some ([0xA3, 0x20, 0x31] ++ [0x20] ++ [0x3A, 0x8E, 0xFF]) ∧
    tokenizeLine (("PRINT 1").data ++ [aposC] ++ ("hi").data) =
      some ([0xA3, 0x20, 0x31] ++ [0x3A, 0x8E, 0xFF]) := by
  decide

/-! ## Claim C2: target preservation through the pipeline -/

/-- Claim C2 / packer bug witness.  For the program
`10 PRINT "abc` / `20 GOTO 30` / `30 END`, line 20 references the
existing line 30 outside any string, line 30 stays a distinct anchor
and `LineMap` sends 30 to 2 — yet the final output keeps the operand
`30` untouched: merging the unterminated string of line 10 with line 20
puts `GOTO30` inside a string literal for the reference-fixup scanner,
so the emitted text is `1 PRINT"abc:GOTO30` instead of containing the
new number 2. -/
theorem claim_C2 :
    packPipeline [(10, ("PRINT \"abc").data), (20, ("GOTO 30").data), (30, ("END").data)] =
      [(1, ("PRINT\"abc:GOTO30").data), (2, ("END").data)] ∧
    (let packed := [(10, ("PRINT \"abc").data), (20, ("GOTO 30").data),
      (30, ("END").data)].map (fun p => (p.1, packLine p.2))
    lookupMap (buildLineMap (mergeLines packed (findLineTargets packed) 255)) 30 = some 2) := by
  decide

/-! ## Claim C8: comment removal -/

/-- Scanning loop of `remove_comment` expressed through the position of
the first comment apostrophe. -/
theorem rcLoop_eq (rem : List Char) :
    ∀ (inStr : Bool) (acc : List Char),
      rcLoop inStr acc rem =
        match commentIdxGo inStr rem with
        | some i => popColonSpaces ((rem.take i).reverse ++ acc)
        | none => rem.reverse ++ acc := by
  induction rem with
  | nil => intro inStr acc; rfl
  | cons c rest ih =>
    intro inStr acc
    by_cases hq : c == '"'
    · rw [show rcLoop inStr acc (c :: rest) = rcLoop (!inStr) (c :: acc) rest by
        simp [rcLoop, hq]]
      rw [ih]
      cases h : commentIdxGo (!inStr) rest <;>
        simp [commentIdxGo, hq, h, List.take_succ_cons]
    · by_cases ha : c == aposC && !inStr
      · rw [show rcLoop inStr acc (c :: rest) = popColonSpaces acc by
          simp [rcLoop, hq, ha]]
        simp [commentIdxGo, hq, ha]
      · rw [show rcLoop inStr acc (c :: rest) = rcLoop inStr (c :: acc) rest by
          simp [rcLoop, hq, ha]]
        rw [ih]
        cases h : commentIdxGo inStr rest <;>
          simp [commentIdxGo, hq, ha, h, List.take_succ_cons]

/-- Claim C8 as stated is false in two ways: at `A=1:: 'x` the code
removes only the single colon adjacent to the comment (result `A=1:`),
not the entire colon/space run; and at `PRINT"AB ` (no comment at all,
trailing space inside an unterminated literal) the code right-trims the
result, so in-string characters are not copied verbatim. -/
theorem claim_C8_counterexample :
    removeComment (("A=1:: ").data ++ [aposC] ++ ("x").data) ≠
      claimRemoveComment (("A=1:: ").data ++ [aposC] ++ ("x").data) ∧
    removeComment (("PRINT\"AB ").data) ≠ claimRemoveComment (("PRINT\"AB ").data) := by
  decide

/-- Claim C8, amended: comment removal discards everything from the
first apostrophe outside a string literal to the end of the line,
additionally removes the run of spaces immediately preceding that
apostrophe together with at most one adjacent colon (not the entire
colon/space run), and finally right-trims the result (so trailing
whitespace disappears even with no comment present); all other
characters, including apostrophes inside string literals, are kept. -/
theorem claim_C8 (l : List Char) : removeComment l = specRemoveComment l := by
  unfold removeComment specRemoveComment commentIdx
  rw [rcLoop_eq]
  cases h : commentIdxGo false l with
  | none => simp
  | some i =>
    simp only [List.append_nil]
    unfold popColonSpaces
    cases h2 : (l.take i).reverse.dropWhile (fun c => c == ' ') with
    | nil => simp [h2]
    | cons c t =>
      by_cases hc : c == ':'
      · simp [h2, hc]
      · simp [h2, hc]

/-! ## Claim C1: binary encoder -/

/-- Head of the address list, defaulting to the end address: the
address of the current record. -/
theorem lineAddresses_head (a : Nat) (ls : List (Nat × List Nat)) :
    ((lineAddresses a ls).head?).getD (endAddress a ls) = a := by
  cases ls with
  | nil => simp [lineAddresses, endAddress]
  | cons x rest => obtain ⟨n, p⟩ := x; simp [lineAddresses]

/-- The end address seen from one record further in. -/
theorem endAddress_cons (a n : Nat) (p : List Nat) (rest : List (Nat × List Nat)) :
    endAddress a ((n, p) :: rest) = endAddress (a + (2 + 2 + p.length + 1)) rest := by
  simp [endAddress]; omega

/-- The two-pass writer of `create_tokenized_file` equals the one-pass
encoder: every record's successor address is the address just past the
record itself. -/
theorem writeRecords_eq (ls : List (Nat × List Nat)) :
    ∀ a : Nat, writeRecords (endAddress a ls) ls (lineAddresses a ls).tail = encodeLines a ls := by
  induction ls with
  | nil => intro a; rfl
  | cons x rest ih =>
    intro a
    obtain ⟨n, p⟩ := x
    simp only [lineAddresses, List.tail_cons, writeRecords, encodeLines]
    rw [endAddress_cons]
    rw [show a + (2 + 2 + p.length + 1) = a + 2 + 2 + p.length + 1 by omega]
    rw [lineAddresses_head, ih]

/-- The output of `create_tokenized_file` record by record. -/
theorem createTokenizedData_eq (base : Nat) (ls : List (Nat × List Nat)) :
    createTokenizedData base ls = encodeLines base ls := by
  unfold createTokenizedData
  exact writeRecords_eq ls base

/-- Byte length of the encoded stream: the sum of the record sizes. -/
theorem encodeLines_length (ls : List (Nat × List Nat)) :
    ∀ a : Nat, (encodeLines a ls).length = (ls.map recSize).sum := by
  induction ls with
  | nil => intro a; rfl
  | cons x rest ih =>
    intro a
    obtain ⟨n, p⟩ := x
    simp [encodeLines, ih, recSize, u16LE]
    omega

/-- Total prefix size over the whole list. -/
theorem prefixSize_all (ls : List (Nat × List Nat)) :
    prefixSize ls ls.length = (ls.map recSize).sum := by
  simp [prefixSize, List.take_length]

/-- A record list is no longer than its encoding. -/
theorem length_le_encodeLines (ls : List (Nat × List Nat)) :
    ∀ a : Nat, ls.length ≤ (encodeLines a ls).length := by
  induction ls with
  | nil => intro a; simp
  | cons x rest ih =>
    intro a
    obtain ⟨n, p⟩ := x
    simp only [encodeLines, List.length_cons, List.length_append, u16LE]
    have := ih (a + 2 + 2 + p.length + 1)
    simp at this ⊢
    omega

/-- Prefix size through the head record. -/
theorem prefixSize_cons_succ (n : Nat) (p : List Nat) (rest : List (Nat × List Nat))
    (m : Nat) :
    prefixSize ((n, p) :: rest) (m + 1) = (5 + p.length) + prefixSize rest m := by
  simp [prefixSize, List.take_succ_cons, recSize]

/-- The record of line `k` sits at offset `prefixSize k` and carries
the successor address `a + prefixSize (k + 1)`. -/
theorem encodeLines_drop (ls : List (Nat × List Nat)) :
    ∀ (k : Nat) (hk : k < ls.length) (a : Nat),
      (encodeLines a ls).drop (prefixSize ls k) =
        u16LE (a + prefixSize ls (k + 1)) ++ u16LE (ls.get ⟨k, hk⟩).1 ++
          (ls.get ⟨k, hk⟩).2 ++ [0] ++
          encodeLines (a + prefixSize ls (k + 1)) (ls.drop (k + 1)) := by
  induction ls with
  | nil => intro k hk; exact absurd hk (by simp)
  | cons x rest ih =>
    intro k hk a
    obtain ⟨n, p⟩ := x
    cases k with
    | zero =>
      have h1 : prefixSize ((n, p) :: rest) 1 = 5 + p.length := by
        simp [prefixSize, List.take_succ_cons, recSize]
      have h0 : prefixSize ((n, p) :: rest) 0 = 0 := by simp [prefixSize]
      rw [h0, h1, List.drop_zero]
      simp only [encodeLines, List.get, List.drop_succ_cons, List.drop_zero]
      rw [show a + 2 + 2 + p.length + 1 = a + (5 + p.length) by omega]
    | succ j =>
      have hj : j < rest.length := by simpa using Nat.lt_of_succ_lt_succ hk
      rw [prefixSize_cons_succ]
      simp only [encodeLines]
      rw [show u16LE (a + 2 + 2 + p.length + 1) ++ u16LE n ++ p ++ [0] ++
            encodeLines (a + 2 + 2 + p.length + 1) rest =
          (u16LE (a + 2 + 2 + p.length + 1) ++ u16LE n ++ p ++ [0]) ++
            encodeLines (a + 2 + 2 + p.length + 1) rest by
        simp [List.append_assoc]]
      have hlen : (u16LE (a + 2 + 2 + p.length + 1) ++ u16LE n ++ p ++ [0]).length =
          5 + p.length := by
        simp [u16LE]; omega
      rw [show (5 + p.length) + prefixSize rest j =
          (u16LE (a + 2 + 2 + p.length + 1) ++ u16LE n ++ p ++ [0]).length +
            prefixSize rest j by rw [hlen]]
      rw [List.drop_append]
      rw [ih j hj (a + 2 + 2 + p.length + 1)]
      rw [prefixSize_cons_succ]
      rw [show a + 2 + 2 + p.length + 1 + prefixSize rest (j + 1) =
          a + ((5 + p.length) + prefixSize rest (j + 1)) by omega]
      simp [List.get, List.drop_succ_cons]

/-- Decoding inverts encoding, record by record, provided all line
numbers fit in 16 bits and the stream ends below address 0xFFFF. -/
theorem decode_encodeLines (ls : List (Nat × List Nat)) :
    ∀ (fuel a : Nat), ls.length ≤ fuel → (∀ p ∈ ls, p.1 ≤ 65535) →
      a + (ls.map recSize).sum ≤ 65535 →
      decodeLinesGo fuel a (encodeLines a ls) = some ls := by
  induction ls with
  | nil =>
    intro fuel a _ _ _
    cases fuel <;> rfl
  | cons x rest ih =>
    intro fuel a hf hm hb
    obtain ⟨n, p⟩ := x
    cases fuel with
    | zero => exact absurd hf (by simp)
    | succ f =>
      have hsum : (5 + p.length) + (rest.map recSize).sum =
          (((n, p) :: rest).map recSize).sum := by
        simp [recSize]
      have ha2 : a + 2 + 2 + p.length + 1 ≤ 65535 := by omega
      have hn : n ≤ 65535 := hm (n, p) (by simp)
      have hshape : encodeLines a ((n, p) :: rest) =
          (a + 2 + 2 + p.length + 1) % 256 ::
            (a + 2 + 2 + p.length + 1) / 256 % 256 ::
            n % 256 :: n / 256 % 256 ::
            (p ++ [0] ++ encodeLines (a + 2 + 2 + p.length + 1) rest) := by
        simp [encodeLines, u16LE]
      rw [hshape]
      have hval : (a + 2 + 2 + p.length + 1) % 256 +
          256 * ((a + 2 + 2 + p.length + 1) / 256 % 256) = a + 2 + 2 + p.length + 1 := by
        omega
      have hnval : n % 256 + 256 * (n / 256 % 256) = n := by omega
      have hplen : a + 2 + 2 + p.length + 1 - a - 5 = p.length := by omega
      simp only [decodeLinesGo, hval, hnval, hplen]
      have hrest : p ++ [0] ++ encodeLines (a + 2 + 2 + p.length + 1) rest =
          (p ++ [0]) ++ encodeLines (a + 2 + 2 + p.length + 1) rest := by
        simp [List.append_assoc]
      have hcond : p.length + 1 ≤ (p ++ [0] ++
          encodeLines (a + 2 + 2 + p.length + 1) rest).length ∧
          (p ++ [0] ++ encodeLines (a + 2 + 2 + p.length + 1) rest).get? p.length =
            some 0 := by
        constructor
        · simp
        · rw [hrest]
          rw [List.get?_eq_getElem?]
          rw [List.getElem?_append_left (by simp)]
          rw [List.getElem?_append_right (by simp)]
          simp
      rw [if_pos hcond]
      have htake : (p ++ [0] ++ encodeLines (a + 2 + 2 + p.length + 1) rest).take p.length
          = p := by
        rw [hrest, List.append_assoc]
        exact List.take_left' rfl
      have hdrop : (p ++ [0] ++ encodeLines (a + 2 + 2 + p.length + 1) rest).drop
          (p.length + 1) = encodeLines (a + 2 + 2 + p.length + 1) rest := by
        rw [hrest]
        exact List.drop_left' (by simp)
      rw [htake, hdrop]
      have hf2 : rest.length ≤ f := by
        have : rest.length + 1 ≤ f + 1 := by simpa using hf
        omega
      rw [ih f (a + 2 + 2 + p.length + 1) hf2
        (fun q hq => hm q (by simp [hq])) (by omega)]
      rfl

/-- Claim C1: for base address `B` and tokenized lines with payloads
`p0..pn`, the encoder emits for the k-th line exactly the record
`[successor as u16 LE][line number as u16 LE][payload][0x00]` at offset
`sum of the first k record sizes`, with successor address
`B + sum over j ≤ k of (5 + p_j)`; the stream is exactly the records
(no sentinel, total length the sum of all record sizes, the last
successor pointing one byte past the end), and decoding by this formula
reproduces every line number and payload (line numbers being u16 and
addresses not wrapping, per the u16 fields of the format). -/
theorem claim_C1 (base : Nat) (ls : List (Nat × List Nat))
    (h1 : ∀ p ∈ ls, p.1 ≤ 65535)
    (h2 : base + prefixSize ls ls.length ≤ 65535) :
    (createTokenizedData base ls).length = prefixSize ls ls.length ∧
    (∀ (k : Nat) (hk : k < ls.length),
      (createTokenizedData base ls).drop (prefixSize ls k) =
        u16LE (base + prefixSize ls (k + 1)) ++ u16LE (ls.get ⟨k, hk⟩).1 ++
          (ls.get ⟨k, hk⟩).2 ++ [0] ++
          createTokenizedData (base + prefixSize ls (k + 1)) (ls.drop (k + 1))) ∧
    decodeLines base (createTokenizedData base ls) = some ls := by
  rw [createTokenizedData_eq]
  refine ⟨?_, ?_, ?_⟩
  · rw [encodeLines_length, prefixSize_all]
  · intro k hk
    rw [createTokenizedData_eq]
    exact encodeLines_drop ls k hk base
  · unfold decodeLines
    apply decode_encodeLines
    · have := length_le_encodeLines ls base
      omega
    · exact h1
    · rw [← prefixSize_all]
      exact h2

/-- Witness for claim C1 at a concrete two-line program
(`10 PRINT` / `20 STOP` tokenized, base 0x8001). -/
theorem claim_C1_witness :
    decodeLines 0x8001 (createTokenizedData 0x8001 [(10, [0xA3]), (20, [0x8F])]) =
      some [(10, [0xA3]), (20, [0x8F])] :=
  (claim_C1 0x8001 [(10, [0xA3]), (20, [0x8F])] (by decide) (by decide)).2.2

/-! ## Claim C3: no merge across control flow -/

/-- Joining a one-piece segment is the identity. -/
theorem joinSeg_singleton (x : List Char) : joinSeg [x] = x := by
  simp [joinSeg, joinSegGo]

/-- The joined flush is the piece-level flush followed by joining. -/
theorem flushCurrent_eq (maxLen s : Nat) (cur : List (List Char)) :
    flushCurrent maxLen s cur =
      (flushSegs maxLen s cur).map (fun e => (e.1, joinSeg e.2)) := by
  cases cur with
  | nil => rfl
  | cons first rest =>
    unfold flushCurrent flushSegs
    by_cases h : ((joinSeg (first :: rest)).length : Int) ≤
        (maxLen : Int) - (((natToDigits s).length : Nat) : Int) - 1
    · simp [h]
    · simp [h, joinSeg_singleton, Function.comp]

/-- The merged output is the piece-level output with each segment
joined. -/
theorem mergeLoop_eq (maxLen : Nat) (targets : List Nat) (lines : List (Nat × List Char)) :
    ∀ (curStart : Option Nat) (curCode : List (List Char)) (prevent : Bool)
      (outS : List (Option Nat × List (List Char))),
      mergeLoop maxLen targets lines curStart curCode prevent
          (outS.map (fun e => (e.1, joinSeg e.2))) =
        (mergeSegsLoop maxLen targets lines curStart curCode prevent outS).map
          (fun e => (e.1, joinSeg e.2)) := by
  induction lines with
  | nil =>
    intro curStart curCode prevent outS
    cases curStart with
    | none => rfl
    | some s => simp [mergeLoop, mergeSegsLoop, flushCurrent_eq]
  | cons x rest ih =>
    intro curStart curCode prevent outS
    obtain ⟨lineNum, code⟩ := x
    by_cases h1 : targets.contains lineNum || prevent
    · cases curStart with
      | none =>
        simp only [mergeLoop, mergeSegsLoop, h1, if_true]
        exact ih (some lineNum) [code] (endsWithControlFlow code) outS
      | some s =>
        simp only [mergeLoop, mergeSegsLoop, h1, if_true]
        rw [show (outS.map (fun e => (e.1, joinSeg e.2))) ++ flushCurrent maxLen s curCode =
            (outS ++ flushSegs maxLen s curCode).map (fun e => (e.1, joinSeg e.2)) by
          rw [List.map_append, flushCurrent_eq]]
        exact ih (some lineNum) [code] (endsWithControlFlow code) _
    · simp only [mergeLoop, mergeSegsLoop, h1, if_false]
      set start2 := match curStart with | some s => s | none => lineNum with hstart
      set separator :=
        if curCode.getLast?.elim false (fun s => ("DATA").data.isPrefixOf (upperL s)) then
          (" :").data
        else (":").data with hsep
      by_cases h2 : (((curCode.map List.length).sum + separator.length * curCode.length +
          code.length : Nat) : Int) ≤
          (maxLen : Int) - (((natToDigits start2).length : Nat) : Int) - 1
      · simp only [h2, if_true]
        exact ih (some start2) (curCode ++ [code]) (endsWithControlFlow code) outS
      · simp only [h2, if_false]
        rw [show (outS.map (fun e => (e.1, joinSeg e.2))) ++ flushCurrent maxLen start2 curCode =
            (outS ++ flushSegs maxLen start2 curCode).map (fun e => (e.1, joinSeg e.2)) by
          rw [List.map_append, flushCurrent_eq]]
        exact ih (some lineNum) [code] (endsWithControlFlow code) _


/-- Joining singleton-wrapped pieces gives back the pieces. -/
theorem flatten_map_singleton (l : List (List Char)) :
    (l.map (fun seg => [seg])).flatten = l := by
  induction l with
  | nil => rfl
  | cons x rest ih => simp [ih]

/-- Flushing emits exactly the accumulated pieces, in order. -/
theorem flushSegs_flatten (maxLen s : Nat) (cur : List (List Char)) :
    ((flushSegs maxLen s cur).map (fun e => e.2)).flatten = cur := by
  cases cur with
  | nil => rfl
  | cons first rest =>
    unfold flushSegs
    by_cases h : ((joinSeg (first :: rest)).length : Int) ≤
        (maxLen : Int) - (((natToDigits s).length : Nat) : Int) - 1
    · simp [h]
    · simp [h]
      exact flatten_map_singleton rest

/-- The pieces of the merged output are exactly the input codes, in
order. -/
theorem mergeSegsLoop_flatten (maxLen : Nat) (targets : List Nat)
    (lines : List (Nat × List Char)) :
    ∀ (curStart : Option Nat) (curCode : List (List Char)) (prevent : Bool)
      (outS : List (Option Nat × List (List Char))),
      (curStart = none → curCode = []) →
      ((mergeSegsLoop maxLen targets lines curStart curCode prevent outS).map
          (fun e => e.2)).flatten =
        ((outS.map (fun e => e.2)).flatten) ++ curCode ++ lines.map (fun p => p.2) := by
  induction lines with
  | nil =>
    intro curStart curCode prevent outS hcc
    cases curStart with
    | none => simp [mergeSegsLoop, hcc rfl]
    | some s => simp [mergeSegsLoop, flushSegs_flatten]
  | cons x rest ih =>
    intro curStart curCode prevent outS hcc
    obtain ⟨lineNum, code⟩ := x
    by_cases h1 : (targets.contains lineNum || prevent) = true
    · simp only [mergeSegsLoop]
      rw [if_pos h1]
      cases curStart with
      | none =>
        rw [ih (some lineNum) [code] (endsWithControlFlow code) outS (by simp)]
        simp [hcc rfl]
      | some s =>
        rw [ih (some lineNum) [code] (endsWithControlFlow code) _ (by simp)]
        simp [flushSegs_flatten]
    · simp only [mergeSegsLoop]
      rw [if_neg h1]
      set start2 := match curStart with | some s => s | none => lineNum with hstart
      set separator :=
        if curCode.getLast?.elim false (fun s => ("DATA").data.isPrefixOf (upperL s)) then
          (" :").data
        else (":").data with hsep
      by_cases h2 : (((curCode.map List.length).sum + separator.length * curCode.length +
          code.length : Nat) : Int) ≤
          (maxLen : Int) - (((natToDigits start2).length : Nat) : Int) - 1
      · rw [if_pos h2]
        rw [ih (some start2) (curCode ++ [code]) (endsWithControlFlow code) outS (by simp)]
        simp
      · rw [if_neg h2]
        rw [ih (some lineNum) [code] (endsWithControlFlow code) _ (by simp)]
        simp [flushSegs_flatten]

/-- Flushing never puts a control-flow piece in a non-final position:
the emitted segments inherit the property from the accumulator. -/
theorem flushSegs_safe (maxLen s : Nat) (cur : List (List Char))
    (hI : ∀ c ∈ cur.dropLast, endsWithControlFlow c = false) :
    ∀ e ∈ flushSegs maxLen s cur, ∀ c ∈ e.2.dropLast, endsWithControlFlow c = false := by
  cases cur with
  | nil => intro e he; simp [flushSegs] at he
  | cons first rest =>
    intro e he
    simp only [flushSegs] at he
    split at he
    · simp at he
      subst he
      exact hI
    · simp at he
      rcases he with he | ⟨seg, _, he⟩
      · subst he; simp
      · subst he; simp

/-- Main safety invariant of the merge loop: in every emitted physical
line, only the final piece can satisfy the control-flow classifier.
The accumulator invariant records that the classifier value of the last
accumulated piece is exactly the `prevent_merge` flag, so the flag
being false means no accumulated piece is a control-flow line. -/
theorem mergeSegsLoop_safe (maxLen : Nat) (targets : List Nat)
    (lines : List (Nat × List Char)) :
    ∀ (curStart : Option Nat) (curCode : List (List Char)) (prevent : Bool)
      (outS : List (Option Nat × List (List Char))),
      (∀ e ∈ outS, ∀ c ∈ e.2.dropLast, endsWithControlFlow c = false) →
      (∀ c ∈ curCode.dropLast, endsWithControlFlow c = false) →
      (∀ c, curCode.getLast? = some c → prevent = endsWithControlFlow c) →
      ∀ e ∈ mergeSegsLoop maxLen targets lines curStart curCode prevent outS,
        ∀ c ∈ e.2.dropLast, endsWithControlFlow c = false := by
  induction lines with
  | nil =>
    intro curStart curCode prevent outS hOut hI _ e he
    cases curStart with
    | none =>
      simp only [mergeSegsLoop] at he
      exact hOut e he
    | some s =>
      simp only [mergeSegsLoop] at he
      rcases List.mem_append.mp he with h | h
      · exact hOut e h
      · exact flushSegs_safe maxLen s curCode hI e h
  | cons x rest ih =>
    intro curStart curCode prevent outS hOut hI hR e he
    obtain ⟨lineNum, code⟩ := x
    simp only [mergeSegsLoop] at he
    split at he
    · have hOut2 : ∀ e2 ∈ (match curStart with
          | some s => outS ++ flushSegs maxLen s curCode
          | none => outS), ∀ c ∈ e2.2.dropLast, endsWithControlFlow c = false := by
        cases curStart with
        | none => exact hOut
        | some s =>
          intro e2 he2
          rcases List.mem_append.mp he2 with h | h
          · exact hOut e2 h
          · exact flushSegs_safe maxLen s curCode hI e2 h
      exact ih (some lineNum) [code] (endsWithControlFlow code) _ hOut2 (by simp)
        (by intro c hc; simp at hc; rw [hc]) e he
    · rename_i h1
      have hprevent : prevent = false := by
        cases hp : prevent
        · rfl
        · exact absurd (by simp [hp]) h1
      have hAll : ∀ c ∈ curCode, endsWithControlFlow c = false := by
        intro c hc
        rcases List.eq_nil_or_concat curCode with hnil | ⟨ys, clast, hys⟩
        · rw [hnil] at hc; simp at hc
        · rw [List.concat_eq_append] at hys
          rw [hys] at hc
          rcases List.mem_append.mp hc with h | h
          · apply hI
            rw [hys, List.dropLast_concat]
            exact h
          · have hceq : c = clast := by simpa using h
            have hlast := hR clast (by rw [hys, List.getLast?_concat])
            rw [hceq, ← hlast, hprevent]
      have hfit : ∀ X : Nat, e ∈ mergeSegsLoop maxLen targets rest (some X)
          (curCode ++ [code]) (endsWithControlFlow code) outS →
          ∀ c ∈ e.2.dropLast, endsWithControlFlow c = false := by
        intro X hee
        refine ih _ (curCode ++ [code]) (endsWithControlFlow code) outS hOut ?_ ?_ e hee
        · intro c hc
          rw [List.dropLast_concat] at hc
          exact hAll c hc
        · intro c hc
          rw [List.getLast?_concat] at hc
          cases hc
          rfl
      have hov : ∀ X : Nat, e ∈ mergeSegsLoop maxLen targets rest (some lineNum) [code]
          (endsWithControlFlow code) (outS ++ flushSegs maxLen X curCode) →
          ∀ c ∈ e.2.dropLast, endsWithControlFlow c = false := by
        intro X hee
        refine ih (some lineNum) [code] (endsWithControlFlow code) _ ?_ (by simp)
          (by intro c hc; simp at hc; rw [hc]) e hee
        intro e2 he2
        rcases List.mem_append.mp he2 with h | h
        · exact hOut e2 h
        · exact flushSegs_safe maxLen _ curCode hI e2 h
      split at he <;> split at he <;>
        first
          | exact hfit _ he
          | exact hov _ he

/-- Claim C3: the classifier (`ends_with_control_flow`), evaluated on
each original source line as handed to `merge_lines`, is a hard merge
barrier for any length budget.  Formally: the merged output is the
piece-level segmentation joined; the segmentation's pieces are exactly
the input codes in order; and in every physical output line only the
final piece can satisfy the classifier.  Hence whenever the classifier
holds of line L1, the following line L2 never shares a physical output
line with L1 — a classifier-true piece is never followed by another
piece within its segment, and the classifier is only ever applied to
input (source) codes, never to merged text. -/
theorem claim_C3 (lines : List (Nat × List Char)) (targets : List Nat) (maxLen : Nat) :
    mergeLines lines targets maxLen =
      (mergeSegs lines targets maxLen).map (fun e => (e.1, joinSeg e.2)) ∧
    ((mergeSegs lines targets maxLen).map (fun e => e.2)).flatten =
      lines.map (fun p => p.2) ∧
    ∀ e ∈ mergeSegs lines targets maxLen, ∀ c ∈ e.2.dropLast,
      endsWithControlFlow c = false := by
  refine ⟨?_, ?_, ?_⟩
  · have := mergeLoop_eq maxLen targets lines none [] false []
    simpa [mergeLines, mergeSegs] using this
  · have := mergeSegsLoop_flatten maxLen targets lines none [] false [] (fun _ => rfl)
    simpa [mergeSegs] using this
  · exact mergeSegsLoop_safe maxLen targets lines none [] false []
      (by intro e he; simp at he) (by simp) (by intro c hc; simp at hc)

/-! ## Claim C9: dangling references -/

/-- Decimal digit characters round-trip through `Char.ofNat`. -/
theorem charDigit_toNat (m : Nat) (h : m < 10) : (Char.ofNat (48 + m)).toNat = 48 + m := by
  interval_cases m <;> decide

/-- Parsing after appending one digit character. -/
theorem listToNat_append_digit (a : List Char) (d : Char) :
    listToNat (a ++ [d]) = 10 * listToNat a + (d.toNat - 48) := by
  simp [listToNat, List.foldl_append]

/-- Python `int(str(n)) = n`. -/
theorem natToDigitsGo_roundtrip : ∀ fuel n : Nat, n < fuel →
    listToNat (natToDigitsGo fuel n) = n := by
  intro fuel
  induction fuel with
  | zero => intro n h; omega
  | succ f ih =>
    intro n h
    by_cases h10 : n < 10
    · rw [show natToDigitsGo (f + 1) n = [Char.ofNat (48 + n)] by simp [natToDigitsGo, h10]]
      simp [listToNat, charDigit_toNat n h10]
    · have hdiv : n / 10 < f := by
        have h1 : n / 10 < n := Nat.div_lt_self (by omega) (by omega)
        omega
      rw [show natToDigitsGo (f + 1) n =
          natToDigitsGo f (n / 10) ++ [Char.ofNat (48 + n % 10)] by
        simp [natToDigitsGo, h10]]
      rw [listToNat_append_digit, ih (n / 10) hdiv,
        charDigit_toNat (n % 10) (Nat.mod_lt _ (by omega))]
      omega

/-- The decimal rendering of a number parses back to itself. -/
theorem natToDigits_roundtrip (n : Nat) : listToNat (natToDigits n) = n :=
  natToDigitsGo_roundtrip (n + 1) n (by omega)

/-- The operand loop of `update_line_references` on a pure digit run:
the whole run is consumed as one operand and replaced by the decimal
rendering of its mapped value. -/
theorem refRunLoop_digits (lm : Nat → Option Nat) (num : List Char)
    (hne : num ≠ []) (hd : ∀ c ∈ num, c.isDigit = true) (acc : List Char) :
    refRunLoop (num.length + 1) lm acc num =
      ((natToDigits ((lm (listToNat num)).getD (listToNat num))).reverse ++ acc, []) := by
  cases num with
  | nil => exact absurd rfl hne
  | cons c rest =>
    have hc : c.isDigit = true := hd c (by simp)
    have htake : (c :: rest).takeWhile Char.isDigit = c :: rest :=
      List.takeWhile_eq_self_iff.mpr (by intro x hx; exact hd x hx)
    have hdrop : (c :: rest).dropWhile Char.isDigit = [] :=
      List.dropWhile_eq_nil_iff.mpr (by intro x hx; exact hd x hx)
    simp only [List.length_cons, refRunLoop, hc, if_true, htake, hdrop]

/-- The jump-keyword scan recognizes `GOTO` at the head. -/
theorem kwRef_goto (num : List Char) : kwRef (("GOTO").data ++ num) = some 4 := by
  have hpre : ("GOTO").data.isPrefixOf (upperL (("GOTO").data ++ num)) = true := by
    rw [show upperL (("GOTO").data ++ num) = ("GOTO").data ++ upperL num by
      simp only [upperL, List.map_append]
      rw [show List.map Char.toUpper (("GOTO").data) = ("GOTO").data from by decide]]
    exact List.isPrefixOf_iff_prefix.mpr (List.prefix_append _ _)
  unfold kwRef
  rw [if_pos hpre]

/-- Claim C9 as stated is false: a dangling operand with leading zeros
is not left textually unchanged — `GOTO007` under an empty line map is
rewritten to `GOTO7` (`str(int("007"))`), though its value is
preserved. -/
theorem claim_C9_counterexample :
    updateLineRefs (fun _ => none) (("GOTO007").data) = ("GOTO7").data ∧
    updateLineRefs (fun _ => none) (("GOTO007").data) ≠ ("GOTO007").data := by
  decide

/-! ## Claim C6: the ELSE colon invariant -/

set_option maxRecDepth 40000 in
/-- In the token table, only the `ELSE` entry carries byte 0x91. -/
theorem tokens_else_unique : ∀ e ∈ TOKENS, e.2 = 0x91 → e.1 = "ELSE" := by decide

set_option maxRecDepth 40000 in
/-- All keyword spellings in the table are ASCII. -/
theorem tokens_ascii : ∀ e ∈ TOKENS, ∀ c ∈ e.1.data, c.toNat < 128 := by decide

set_option maxRecDepth 40000 in
/-- All token bytes fit in a byte. -/
theorem tokens_byte_le : ∀ e ∈ TOKENS, e.2 ≤ 255 := by decide

/-- Characterization of a successful keyword match: some table entry
supplies the byte, its uppercase spelling is the uppercased candidate,
and the length is between 1 and the tried bound. -/
theorem kwMatchGo_some (rem : List Char) :
    ∀ (k klen tok : Nat), kwMatchGo rem k = some (klen, tok) →
      ∃ e ∈ TOKENS, e.2 = tok ∧ e.1.data = upperL (rem.take klen) ∧
        1 ≤ klen ∧ klen ≤ k := by
  intro k
  induction k with
  | zero => intro klen tok h; simp [kwMatchGo] at h
  | succ j ih =>
    intro klen tok h
    simp only [kwMatchGo] at h
    cases hf : TOKENS.find? (fun e => e.1.data == upperL (rem.take (j + 1))) with
    | some e =>
      rw [hf] at h
      simp at h
      obtain ⟨h1, h2⟩ := h
      refine ⟨e, List.mem_of_find?_eq_some hf, by rw [h2], ?_, by omega, by omega⟩
      have hp := List.find?_some hf
      rw [← h1]
      simpa using hp
    | none =>
      rw [hf] at h
      obtain ⟨e, he, h2, h3, h4, h5⟩ := ih klen tok h
      exact ⟨e, he, h2, h3, h4, by omega⟩

/-- Characterization of `kwMatch`. -/
theorem kwMatch_some (rem : List Char) (klen tok : Nat)
    (h : kwMatch rem = some (klen, tok)) :
    ∃ e ∈ TOKENS, e.2 = tok ∧ e.1.data = upperL (rem.take klen) ∧
      1 ≤ klen ∧ klen ≤ rem.length := by
  obtain ⟨e, he, h2, h3, h4, h5⟩ := kwMatchGo_some rem (min 10 rem.length) klen tok h
  exact ⟨e, he, h2, h3, h4, by omega⟩

/-- Appending a byte other than 0x91 preserves the reversed-buffer
colon invariant. -/
theorem qcons (b : Nat) (acc : List Nat) (hb : b ≠ 0x91)
    (hQ : ∀ k, acc.get? k = some 0x91 → k + 1 = acc.length ∨ acc.get? (k + 1) = some 0x3A) :
    ∀ k, (b :: acc).get? k = some 0x91 →
      k + 1 = (b :: acc).length ∨ (b :: acc).get? (k + 1) = some 0x3A := by
  intro k hk
  cases k with
  | zero => simp at hk; exact absurd hk hb
  | succ m =>
    rcases hQ m (by simpa using hk) with h | h
    · left; simp [h]
    · right; simpa using h

/-- Appending any byte over a colon preserves the invariant. -/
theorem qcons_colon (b : Nat) (acc : List Nat)
    (hQ : ∀ k, acc.get? k = some 0x91 → k + 1 = acc.length ∨ acc.get? (k + 1) = some 0x3A) :
    ∀ k, (b :: 0x3A :: acc).get? k = some 0x91 →
      k + 1 = (b :: 0x3A :: acc).length ∨ (b :: 0x3A :: acc).get? (k + 1) = some 0x3A := by
  intro k hk
  cases k with
  | zero => right; rfl
  | succ m =>
    cases m with
    | zero => simp at hk
    | succ m2 =>
      rcases hQ m2 (by simpa using hk) with h | h
      · left; simp [h]
      · right; simpa using h

/-- Appending any byte onto a buffer headed by a colon preserves the
invariant. -/
theorem qcons_head_colon (b : Nat) (acc : List Nat) (hhead : acc.head? = some 0x3A)
    (hQ : ∀ k, acc.get? k = some 0x91 → k + 1 = acc.length ∨ acc.get? (k + 1) = some 0x3A) :
    ∀ k, (b :: acc).get? k = some 0x91 →
      k + 1 = (b :: acc).length ∨ (b :: acc).get? (k + 1) = some 0x3A := by
  intro k hk
  cases k with
  | zero =>
    right
    cases acc with
    | nil => simp at hhead
    | cons h t => simpa using hhead
  | succ m =>
    rcases hQ m (by simpa using hk) with h | h
    · left; simp [h]
    · right; simpa using h

/-- Invariant of the tokenizer loop on ASCII input: in the reversed
output buffer, every 0x91 byte is either the byte at the very start of
the stream (end of the reversed buffer) or directly followed (in
reverse) by a colon byte. -/
theorem tokLoop_else_colon : ∀ (fuel : Nat) (prev : Option Char) (inStr : Bool)
    (rem : List Char) (acc : List Nat),
    (∀ c ∈ rem, c.toNat < 128) →
    (∀ k, acc.get? k = some 0x91 → k + 1 = acc.length ∨ acc.get? (k + 1) = some 0x3A) →
    ∀ bs, tokLoop fuel prev inStr rem acc = some bs →
      ∀ k, bs.get? k = some 0x91 → k + 1 = bs.length ∨ bs.get? (k + 1) = some 0x3A := by
  intro fuel
  induction fuel with
  | zero =>
    intro prev inStr rem acc _ hQ bs h
    cases h
    exact hQ
  | succ f ih =>
    intro prev inStr rem acc hrem hQ bs h
    cases rem with
    | nil =>
      cases h
      exact hQ
    | cons c rest =>
      have hc128 : c.toNat < 128 := hrem c (by simp)
      have hrest : ∀ x ∈ rest, x.toNat < 128 := fun x hx => hrem x (by simp [hx])
      have hpush : pushByte (ordC c) acc = some (ordC c :: acc) := by
        simp only [pushByte, ordC]
        rw [if_pos (by omega)]
      simp only [tokLoop] at h
      split at h
      · exact ih (some c) (!inStr) rest (ordC c :: acc) hrest
          (qcons (ordC c) acc (by simp [ordC]; omega) hQ) bs h
      · split at h
        · cases h
          exact qcons 0xFF _ (by omega)
            (qcons 0x8E _ (by omega) (qcons 0x3A _ (by omega) hQ))
        · split at h
          · rw [hpush] at h
            simp only [Option.some_bind] at h
            exact ih (some c) inStr rest (ordC c :: acc) hrest
              (qcons (ordC c) acc (by simp [ordC]; omega) hQ) bs h
          · split at h
            · rename_i klen tok hm
              have hrem2 : ∀ x ∈ (c :: rest).drop klen, x.toNat < 128 :=
                fun x hx => hrem x (List.drop_subset _ _ hx)
              by_cases helse : (upperL ((c :: rest).take klen) == ("ELSE").data) = true
              · rw [if_pos helse] at h
                cases acc with
                | nil =>
                  refine ih _ inStr _ [tok] hrem2 ?_ bs h
                  intro k hk
                  cases k with
                  | zero => left; rfl
                  | succ m => simp at hk
                | cons h2 t =>
                  by_cases h3A : (h2 != 0x3A) = true
                  · rw [show (match h2 :: t with
                        | h :: t => if h != 0x3A then tok :: 0x3A :: h :: t else tok :: h :: t
                        | [] => tok :: (h2 :: t)) = tok :: 0x3A :: h2 :: t by
                      simp only [h3A, if_true]] at h
                    exact ih _ inStr _ _ hrem2 (qcons_colon tok (h2 :: t) hQ) bs h
                  · have h2eq : h2 = 0x3A := by simpa using h3A
                    rw [show (match h2 :: t with
                        | h :: t => if h != 0x3A then tok :: 0x3A :: h :: t else tok :: h :: t
                        | [] => tok :: (h2 :: t)) = tok :: h2 :: t by
                      simp only [h3A]; rfl] at h
                    exact ih _ inStr _ _ hrem2
                      (qcons_head_colon tok (h2 :: t) (by simp [h2eq]) hQ) bs h
              · rw [if_neg helse] at h
                have htok : tok ≠ 0x91 := by
                  intro htok91
                  obtain ⟨e, he, he2, he3, _, _⟩ := kwMatch_some (c :: rest) klen tok hm
                  have : e.1 = "ELSE" := tokens_else_unique e he (by rw [he2, htok91])
                  apply helse
                  rw [← he3, this]
                  simp
                exact ih _ inStr _ _ hrem2 (qcons tok acc htok hQ) bs h
            · rw [hpush] at h
              simp only [Option.some_bind] at h
              exact ih (some c) inStr rest (ordC c :: acc) hrest
                (qcons (ordC c) acc (by simp [ordC]; omega) hQ) bs h

/-- Claim C6 as stated is false: when `ELSE` is matched at the very
start of a line (here `ELSE30`), the emitted 0x91 is the first byte of
the stream and no colon precedes it — the fix-up inserts a colon only
when at least one byte was already emitted. -/
theorem claim_C6_counterexample :
    tokenizeLine (("ELSE30").data) = some [0x91, 0x33, 0x30] ∧
    ∀ j, ([0x91, 0x33, 0x30] : List Nat).get? j ≠ some 0x3A := by
  constructor
  · decide
  · intro j
    rcases j with _ | _ | _ | m <;> simp [List.get?]

/-- Claim C6, amended: for an ASCII code line, every 0x91 byte in the
tokenized stream (which, for ASCII input, can only arise from an `ELSE`
keyword match) is immediately preceded by a colon byte 0x3A — except
when the ELSE token is the very first byte of the stream, where nothing
precedes it and no colon is inserted. -/
theorem claim_C6 (s : List Char) (hs : ∀ c ∈ s, c.toNat < 128) (bs : List Nat)
    (hbs : tokenizeLine s = some bs) (k : Nat) (hk : bs.get? k = some 0x91) :
    k = 0 ∨ bs.get? (k - 1) = some 0x3A := by
  unfold tokenizeLine at hbs
  cases hacc : tokLoop (s.length + 1) none false s [] with
  | none => rw [hacc] at hbs; cases hbs
  | some acc =>
    rw [hacc] at hbs
    simp only [Option.map_some'] at hbs
    have hbs2 : acc.reverse = bs := by injection hbs
    have hQ := tokLoop_else_colon (s.length + 1) none false s [] hs
      (by intro k2 hk2; simp at hk2) acc hacc
    rw [← hbs2] at hk
    have hklt : k < acc.length := by
      by_contra hge
      rw [List.get?_eq_none.mpr (by simp; omega)] at hk
      cases hk
    have hrev1 := List.get?_reverse' k (acc.length - 1 - k) (l := acc) (by omega)
    rw [hrev1] at hk
    rcases hQ (acc.length - 1 - k) hk with hcase | hcase
    · left
      omega
    · have hlt2 : acc.length - 1 - k + 1 < acc.length := by
        by_contra hge2
        rw [List.get?_eq_none.mpr (by omega)] at hcase
        cases hcase
      have hk1 : 1 ≤ k := by omega
      right
      rw [← hbs2]
      have hrev2 := List.get?_reverse' (k - 1) (acc.length - 1 - (k - 1)) (l := acc)
        (by omega)
      rw [hrev2]
      rw [show acc.length - 1 - (k - 1) = acc.length - 1 - k + 1 by omega]
      exact hcase

/-- Witness for claim C6 at `IF A THEN 20 ELSE 30` (the ELSE token is
byte 10 of the stream and byte 9 is the colon). -/
theorem claim_C6_witness :
    (10 : Nat) = 0 ∨
      ([0x8A, 0x20, 0x41, 0x20, 0xCD, 0x20, 0x32, 0x30, 0x20, 0x3A, 0x91, 0x20,
        0x33, 0x30] : List Nat).get? (10 - 1) = some 0x3A :=
  claim_C6 (("IF A THEN 20 ELSE 30").data) (by decide)
    [0x8A, 0x20, 0x41, 0x20, 0xCD, 0x20, 0x32, 0x30, 0x20, 0x3A, 0x91, 0x20, 0x33, 0x30]
    (by decide) 10 (by decide)

/-! ## Claim C10: characters above 255 -/

/-- Round-trip of `Char.ofNat` below the surrogate range. -/
theorem charOfNat_toNat (m : Nat) (h : m < 55296) : (Char.ofNat m).toNat = m := by
  have hv : m.isValidChar := Or.inl h
  unfold Char.ofNat
  rw [dif_pos hv]
  rfl

/-- An uppercase image below 128 forces the original below 128. -/
theorem toUpper_toNat_low (c : Char) (h : (Char.toUpper c).toNat < 128) :
    c.toNat < 128 := by
  by_cases hc : c.toNat ≥ 97 ∧ c.toNat ≤ 122
  · omega
  · have : Char.toUpper c = c := by
      simp only [Char.toUpper]
      rw [if_neg hc]
    rw [this] at h
    exact h

/-- Only characters below code 65 are fixed by `toUpper` onto such a
character: if the uppercase image is a low symbol, so was the input. -/
theorem toUpper_eq_low (c d : Char) (hd : d.toNat < 65) (h : Char.toUpper c = d) :
    c = d := by
  by_cases hc : c.toNat ≥ 97 ∧ c.toNat ≤ 122
  · exfalso
    have h2 : Char.toUpper c = Char.ofNat (c.toNat - 32) := by
      simp only [Char.toUpper]
      rw [if_pos hc]
    rw [h2] at h
    have h3 : (Char.ofNat (c.toNat - 32)).toNat = c.toNat - 32 :=
      charOfNat_toNat _ (by omega)
    rw [h] at h3
    omega
  · have : Char.toUpper c = c := by
      simp only [Char.toUpper]
      rw [if_neg hc]
    rw [this] at h
    exact h

set_option maxRecDepth 40000 in
/-- Characters of every table keyword other than the lone apostrophe
entry are ASCII and are neither a quote nor an apostrophe. -/
theorem tokens_chars : ∀ e ∈ TOKENS, e.1 ≠ ("\x27") →
    ∀ ch ∈ e.1.data, ch.toNat < 128 ∧ ch ≠ '"' ∧ ch ≠ aposC := by decide

/-- Totality of the tokenizer loop on byte-sized characters: no append
can fail, so the loop always returns a buffer. -/
theorem tokLoop_total : ∀ (fuel : Nat) (prev : Option Char) (inStr : Bool)
    (rem : List Char) (acc : List Nat), (∀ c ∈ rem, c.toNat ≤ 255) →
    ∃ bs, tokLoop fuel prev inStr rem acc = some bs := by
  intro fuel
  induction fuel with
  | zero => intro prev inStr rem acc _; exact ⟨acc, rfl⟩
  | succ f ih =>
    intro prev inStr rem acc hrem
    cases rem with
    | nil => exact ⟨acc, rfl⟩
    | cons c rest =>
      have hc : c.toNat ≤ 255 := hrem c (by simp)
      have hrest : ∀ x ∈ rest, x.toNat ≤ 255 := fun x hx => hrem x (by simp [hx])
      have hpush : pushByte (ordC c) acc = some (ordC c :: acc) := by
        simp only [pushByte, ordC]
        rw [if_pos (by omega)]
      simp only [tokLoop]
      split
      · exact ih (some c) (!inStr) rest (ordC c :: acc) hrest
      · split
        · exact ⟨_, rfl⟩
        · split
          · rw [hpush]
            simp only [Option.some_bind]
            exact ih (some c) inStr rest (ordC c :: acc) hrest
          · split
            · rename_i klen tok hm
              exact ih _ inStr _ _ (fun x hx => hrem x (List.drop_subset _ _ hx))
            · rw [hpush]
              simp only [Option.some_bind]
              exact ih (some c) inStr rest (ordC c :: acc) hrest

/-- Claim C10 as stated is false: the line code `'€` contains the
character U+20AC (code point 8364 > 255), yet tokenization succeeds —
the comment apostrophe stops the scan before the offending character —
and the CLI emits a record for the line. -/
theorem claim_C10_counterexample :
    tokenizeLine ([aposC] ++ ("€").data) = some [0x3A, 0x8E, 0xFF] ∧
    (∃ c ∈ [aposC] ++ ("€").data, 255 < c.toNat) ∧
    createTokenizedFile 0x8001 [(10, [aposC] ++ ("€").data)] ≠ [] := by
  refine ⟨by decide, by decide, by decide⟩

/-- Claim C10, amended: a line whose characters all have code points
at most 255 always tokenizes to a byte sequence; tokenization can fail
only through a character above 255 reaching the byte append (modelled
by the `none` result), and the euro sign alone -- which no keyword
match can consume -- is such a failing line; the command-line loop
emits no record for a line whose tokenization fails.  Containing a
character above 255 does not imply failure (see the counterexample,
and in the program a character that Unicode-uppercases into a keyword,
such as the long s in `\u017Fgn` matching `SGN`, is consumed as token
bytes). -/
theorem claim_C10 :
    (∀ s : List Char, (∀ c ∈ s, c.toNat ≤ 255) → ∃ bs, tokenizeLine s = some bs) ∧
    tokenizeLine (("€").data) = none ∧
    (∀ (base n : Nat) (c : List Char) (pre post : List (Nat × List Char)),
      tokenizeLine c = none →
      createTokenizedFile base (pre ++ (n, c) :: post) =
        createTokenizedFile base (pre ++ post)) := by
  refine ⟨?_, by decide, ?_⟩
  · intro s hs
    unfold tokenizeLine
    obtain ⟨bs, hbs⟩ := tokLoop_total (s.length + 1) none false s [] hs
    exact ⟨bs.reverse, by rw [hbs]; rfl⟩
  · intro base n c pre post hc
    unfold createTokenizedFile
    rw [List.filterMap_append, List.filterMap_append, List.filterMap_cons, hc]
    rfl

/-- Witness for claim C10: `PRINT` (all ASCII) tokenizes, and a line
consisting of the euro sign, which fails to tokenize, contributes no
record when it stands between an empty prefix and an empty suffix. -/
theorem claim_C10_witness :
    (∃ bs, tokenizeLine (("PRINT").data) = some bs) ∧
    createTokenizedFile 0x8001 ([] ++ (10, ("€").data) :: []) =
      createTokenizedFile 0x8001 ([] ++ ([] : List (Nat × List Char))) :=
  ⟨claim_C10.1 (("PRINT").data) (by decide),
    claim_C10.2.2 0x8001 10 (("€").data) [] [] (by decide)⟩

/-! ## Claim C4: the control-flow classifier -/

/-- The position 0 is outside exactly when the entering state is
outside. -/
theorem outAt_zero (s : Bool) (l : List Char) : outAt s l 0 = !s := by
  cases s <;> simp [outAt]

/-- Position shift across a quote: the relative state flips. -/
theorem outAt_cons_quote (s : Bool) (rest : List Char) (j : Nat) :
    outAt s ('"' :: rest) (j + 1) = outAt (!s) rest j := by
  rcases Nat.mod_two_eq_zero_or_one ((rest.take j).count '"') with h | h <;>
    cases s <;>
    simp [outAt, List.take_succ_cons, List.count_cons, h, Nat.add_mod]

/-- Position shift across a non-quote character. -/
theorem outAt_cons_other (s : Bool) (c : Char) (rest : List Char) (hc : ¬(c = '"'))
    (j : Nat) : outAt s (c :: rest) (j + 1) = outAt s rest j := by
  simp [outAt, List.take_succ_cons, List.count_cons, hc]

/-- Keyword tests shift across any head character. -/
theorem wordAt_cons (w : List Char) (c : Char) (rest : List Char) (j : Nat) :
    wordAt w (c :: rest) (j + 1) = wordAt w rest j := by
  simp [wordAt, List.drop_succ_cons]

/-- One step of a bounded range search. -/
theorem any_range_succ (n : Nat) (f : Nat → Bool) :
    (List.range (n + 1)).any f = (f 0 || (List.range n).any (fun j => f (j + 1))) := by
  rw [List.range_succ_eq_map]
  simp only [List.any_cons, List.any_map]
  rw [show (f ∘ Nat.succ) = (fun j => f (j + 1)) from funext (fun j => rfl)]

/-- One step of a bounded range filter. -/
theorem filter_range_succ (n : Nat) (f : Nat → Bool) :
    (List.range (n + 1)).filter f =
      (if f 0 then [0] else []) ++
        ((List.range n).filter (fun j => f (j + 1))).map (fun j => j + 1) := by
  rw [List.range_succ_eq_map, List.filter_cons, List.filter_map]
  rw [show (f ∘ Nat.succ) = (fun j => f (j + 1)) from funext (fun j => rfl)]
  rw [show Nat.succ = (fun j => j + 1) from funext (fun j => rfl)]
  by_cases h0 : f 0
  · simp [h0]
  · simp [h0]

/-- The last-colon scan of `ends_with_control_flow` computes the last
top-level colon position (spec side), offset by the running index. -/
theorem lastColonLoop_eq (l : List Char) :
    ∀ (s : Bool) (off : Nat) (lc : Option Nat),
      lastColonLoop s off lc l =
        match (topColons s l).getLast? with
        | some j => some (off + j)
        | none => lc := by
  induction l with
  | nil => intro s off lc; simp [lastColonLoop, topColons]
  | cons c rest ih =>
    intro s off lc
    have hT : topColons s (c :: rest) =
        (if ((c :: rest).get? 0 == some ':' && outAt s (c :: rest) 0) then [0] else []) ++
          ((List.range rest.length).filter
            (fun j => (c :: rest).get? (j + 1) == some ':' &&
              outAt s (c :: rest) (j + 1))).map (fun j => j + 1) := by
      unfold topColons
      rw [show (c :: rest).length = rest.length + 1 from rfl]
      exact filter_range_succ _ _
    by_cases hq : c = '"'
    · subst hq
      rw [show lastColonLoop s off lc ('"' :: rest) =
          lastColonLoop (!s) (off + 1) lc rest from by
        simp only [lastColonLoop]
        rw [if_pos (by simp)]]
      rw [ih (!s) (off + 1) lc]
      have hT2 : topColons s ('"' :: rest) = (topColons (!s) rest).map (fun j => j + 1) := by
        rw [hT]
        rw [if_neg (by simp)]
        rw [show (fun j => ('"' :: rest).get? (j + 1) == some ':' &&
            outAt s ('"' :: rest) (j + 1)) = (fun j => rest.get? j == some ':' &&
            outAt (!s) rest j) from funext (fun j => by
          rw [List.get?_cons_succ, outAt_cons_quote])]
        simp only [List.nil_append]
        rfl
      rw [hT2, List.getLast?_map]
      cases h : (topColons (!s) rest).getLast? with
      | none => rfl
      | some j =>
        simp only [Option.map_some']
        rw [show off + (j + 1) = off + 1 + j by omega]
    · by_cases hcl : (c == ':' && !s) = true
      · have hc2 : c = ':' := by
          have := (Bool.and_eq_true _ _).mp hcl
          simpa using this.1
        have hs : s = false := by
          have := (Bool.and_eq_true _ _).mp hcl
          simpa using this.2
        rw [show lastColonLoop s off lc (c :: rest) =
            lastColonLoop s (off + 1) (some off) rest from by
          simp only [lastColonLoop]
          rw [if_neg (by simp [hq]), if_pos hcl]]
        rw [ih s (off + 1) (some off)]
        have hT2 : topColons s (c :: rest) = 0 :: (topColons s rest).map (fun j => j + 1) := by
          rw [hT]
          rw [if_pos (by simp [hc2, outAt_zero, hs])]
          rw [show (fun j => (c :: rest).get? (j + 1) == some ':' &&
              outAt s (c :: rest) (j + 1)) = (fun j => rest.get? j == some ':' &&
              outAt s rest j) from funext (fun j => by
            rw [List.get?_cons_succ, outAt_cons_other s c rest hq])]
          rfl
        rw [hT2]
        cases h : (topColons s rest).getLast? with
        | none =>
          have hnil : topColons s rest = [] := List.getLast?_eq_none_iff.mp h
          simp [hnil]
        | some j =>
          have hne : topColons s rest ≠ [] := by
            intro hbad
            rw [hbad] at h
            cases h
          have hmapne : (topColons s rest).map (fun j => j + 1) ≠ [] := by
            simpa using hne
          rw [show (0 :: (topColons s rest).map (fun j => j + 1)).getLast? =
              ((topColons s rest).map (fun j => j + 1)).getLast? from by
            cases hm : (topColons s rest).map (fun j => j + 1) with
            | nil => exact absurd hm hmapne
            | cons y ys => exact List.getLast?_cons_cons]
          rw [List.getLast?_map, h]
          simp only [Option.map_some']
          rw [show off + (j + 1) = off + 1 + j by omega]
      · rw [show lastColonLoop s off lc (c :: rest) =
            lastColonLoop s (off + 1) lc rest from by
          simp only [lastColonLoop]
          rw [if_neg (by simp [hq]), if_neg hcl]]
        rw [ih s (off + 1) lc]
        have hhead : ((c :: rest).get? 0 == some ':' && outAt s (c :: rest) 0) = false := by
          rcases Bool.eq_false_or_eq_true (c == ':') with hcc | hcc
          · have hc2 : c = ':' := by simpa using hcc
            have hs : s = true := by
              rcases Bool.eq_false_or_eq_true s with hss | hss
              · exact hss
              · exfalso; apply hcl; simp [hc2, hss]
            simp [outAt_zero, hs]
          · have : (some c == some ':') = false := by simpa using hcc
            simp [this]
        have hT2 : topColons s (c :: rest) = (topColons s rest).map (fun j => j + 1) := by
          rw [hT]
          rw [if_neg (by rw [hhead]; simp)]
          simp only [List.nil_append]
          rw [show (fun j => (c :: rest).get? (j + 1) == some ':' &&
              outAt s (c :: rest) (j + 1)) = (fun j => rest.get? j == some ':' &&
              outAt s rest j) from funext (fun j => by
            rw [List.get?_cons_succ, outAt_cons_other s c rest hq])]
          rfl
        rw [hT2, List.getLast?_map]
        cases h : (topColons s rest).getLast? with
        | none => rfl
        | some j =>
          simp only [Option.map_some']
          rw [show off + (j + 1) = off + 1 + j by omega]

/-- A keyword does not match at a position whose uppercased character
differs from the keyword head. -/
theorem wordAt_cons_zero_ne (k : Char) (wt : List Char) (c : Char) (rest : List Char)
    (hk : ¬(k = Char.toUpper c)) : wordAt (k :: wt) (c :: rest) 0 = false := by
  simp only [wordAt, List.drop_zero, upperL, List.map_cons, List.isPrefixOf_cons₂]
  simp [hk]

/-- The inner THEN scan finds exactly the outside-THEN positions. -/
theorem innerThenScan_fst (l : List Char) :
    ∀ s, (innerThenScan s l).1 = specHasThen s l := by
  induction l with
  | nil => intro s; simp [innerThenScan, specHasThen]
  | cons c rest ih =>
    intro s
    rw [show specHasThen s (c :: rest) =
        ((outAt s (c :: rest) 0 && wordAt ("THEN").data (c :: rest) 0) ||
          (List.range rest.length).any (fun j =>
            outAt s (c :: rest) (j + 1) && wordAt ("THEN").data (c :: rest) (j + 1))) from by
      unfold specHasThen
      rw [show (c :: rest).length = rest.length + 1 from rfl, any_range_succ]]
    by_cases hq : c = '"'
    · subst hq
      rw [show innerThenScan s ('"' :: rest) = innerThenScan (!s) rest from by
        simp [innerThenScan]]
      rw [ih (!s)]
      rw [wordAt_cons_zero_ne 'T' _ '"' rest (by decide)]
      rw [show (fun j => outAt s ('"' :: rest) (j + 1) &&
          wordAt ("THEN").data ('"' :: rest) (j + 1)) =
          (fun j => outAt (!s) rest j && wordAt ("THEN").data rest j) from
        funext (fun j => by rw [outAt_cons_quote, wordAt_cons])]
      simp [specHasThen]
    · by_cases hbr : (!s && ("THEN").data.isPrefixOf (upperL (c :: rest))) = true
      · rw [show innerThenScan s (c :: rest) = (true, s) from by
          simp only [innerThenScan]
          rw [if_neg (by simp [hq]), if_pos hbr]]
        have h0 : (outAt s (c :: rest) 0 && wordAt ("THEN").data (c :: rest) 0) = true := by
          rw [outAt_zero]
          exact hbr
        rw [h0]
        rfl
      · rw [show innerThenScan s (c :: rest) = innerThenScan s rest from by
          simp only [innerThenScan]
          rw [if_neg (by simp [hq]), if_neg hbr]]
        rw [ih s]
        have h0 : (outAt s (c :: rest) 0 && wordAt ("THEN").data (c :: rest) 0) = false := by
          rw [outAt_zero]
          exact Bool.eq_false_iff.mpr hbr
        rw [h0]
        rw [show (fun j => outAt s (c :: rest) (j + 1) &&
            wordAt ("THEN").data (c :: rest) (j + 1)) =
            (fun j => outAt s rest j && wordAt ("THEN").data rest j) from
          funext (fun j => by rw [outAt_cons_other s c rest hq, wordAt_cons])]
        simp [specHasThen]

/-- When the inner THEN scan fails, it leaves the string flag at the
parity of the scanned quotes. -/
theorem innerThenScan_snd (l : List Char) :
    ∀ s, (innerThenScan s l).1 = false →
      (innerThenScan s l).2 = (s != decide ((l.count '"') % 2 = 1)) := by
  induction l with
  | nil => intro s _; cases s <;> simp [innerThenScan]
  | cons c rest ih =>
    intro s hfst
    by_cases hq : c = '"'
    · subst hq
      rw [show innerThenScan s ('"' :: rest) = innerThenScan (!s) rest from by
        simp [innerThenScan]] at hfst ⊢
      rw [ih (!s) hfst]
      rcases Nat.mod_two_eq_zero_or_one (rest.count '"') with h | h <;>
        cases s <;> simp [List.count_cons, h, Nat.add_mod]
    · by_cases hbr : (!s && ("THEN").data.isPrefixOf (upperL (c :: rest))) = true
      · rw [show innerThenScan s (c :: rest) = (true, s) from by
          simp only [innerThenScan]
          rw [if_neg (by simp [hq]), if_pos hbr]] at hfst
        cases hfst
      · rw [show innerThenScan s (c :: rest) = innerThenScan s rest from by
          simp only [innerThenScan]
          rw [if_neg (by simp [hq]), if_neg hbr]] at hfst ⊢
        rw [ih s hfst]
        simp [List.count_cons, hq]

/-- Unfolding the relative IF-with-THEN containment across one head
character, given how the outside test shifts over it. -/
theorem ctirel_cons (s s2 : Bool) (c : Char) (rest : List Char)
    (hshift : ∀ j, outAt s (c :: rest) (j + 1) = outAt s2 rest j) :
    containsIfThenRel s (c :: rest) =
      ((outAt s (c :: rest) 0 && wordAt ("IF").data (c :: rest) 0 &&
        (List.range (rest.length + 1)).any (fun j =>
          decide (0 < j) && outAt s (c :: rest) j &&
            wordAt ("THEN").data (c :: rest) j)) ||
        containsIfThenRel s2 rest) := by
  unfold containsIfThenRel
  rw [show (c :: rest).length = rest.length + 1 from rfl, any_range_succ]
  congr 1
  rw [show (fun i => outAt s (c :: rest) (i + 1) &&
      wordAt ("IF").data (c :: rest) (i + 1) &&
      (List.range (rest.length + 1)).any (fun j =>
        decide (i + 1 < j) && outAt s (c :: rest) j &&
          wordAt ("THEN").data (c :: rest) j)) =
      (fun i => outAt s2 rest i && wordAt ("IF").data rest i &&
        (List.range rest.length).any (fun j =>
          decide (i < j) && outAt s2 rest j &&
            wordAt ("THEN").data rest j)) from funext (fun i => by
    rw [hshift i, wordAt_cons, any_range_succ]
    rw [show (fun j => decide (i + 1 < j + 1) && outAt s (c :: rest) (j + 1) &&
        wordAt ("THEN").data (c :: rest) (j + 1)) =
        (fun j => decide (i < j) && outAt s2 rest j &&
          wordAt ("THEN").data rest j) from funext (fun j => by
      rw [hshift j, wordAt_cons]
      simp [Nat.succ_lt_succ_iff])
      ]
    simp)]

/-- The outer `IF` scan of the classifier agrees with the relative
spec-side IF-with-later-THEN predicate whenever the incoming string
state equals the parity of the quotes still to be scanned. -/
theorem ifThenScan_eq (l : List Char) :
    ∀ s, decide ((l.count '"') % 2 = 1) = s →
      ifThenScan s l = containsIfThenRel s l := by
  induction l with
  | nil => intro s _; simp [ifThenScan, containsIfThenRel]
  | cons c rest ih =>
    intro s hinv
    by_cases hq : c = '"'
    · subst hq
      have hinv2 : decide ((rest.count '"') % 2 = 1) = !s := by
        rw [← hinv]
        rcases Nat.mod_two_eq_zero_or_one (rest.count '"') with h | h <;>
          simp [List.count_cons, Nat.add_mod, h]
      rw [show ifThenScan s ('"' :: rest) = ifThenScan (!s) rest from by
        simp [ifThenScan]]
      rw [ih (!s) hinv2]
      rw [ctirel_cons s (!s) '"' rest (outAt_cons_quote s rest)]
      have hw : wordAt ("IF").data ('"' :: rest) 0 = false :=
        wordAt_cons_zero_ne 'I' (("F").data) '"' rest (by decide)
      rw [hw]
      simp
    · by_cases hbr : (!s && ("IF").data.isPrefixOf (upperL (c :: rest))) = true
      · have hs : s = false := by
          cases s
          · rfl
          · simp at hbr
        subst hs
        have hpre : ("IF").data.isPrefixOf (upperL (c :: rest)) = true := by
          simpa using hbr
        cases rest with
        | nil =>
          rw [show ("IF").data = ['I', 'F'] from rfl] at hpre
          simp [upperL, List.isPrefixOf_cons₂] at hpre
        | cons f rest2 =>
          have hcf : 'I' = Char.toUpper c ∧ 'F' = Char.toUpper f := by
            rw [show ("IF").data = ['I', 'F'] from rfl] at hpre
            simpa [upperL, List.isPrefixOf_cons₂] using hpre
          have hfq : ¬(f = '"') := by
            intro h
            rw [h] at hcf
            exact absurd hcf.2 (by decide)
          have hLHS : ifThenScan false (c :: f :: rest2) =
              (match innerThenScan false rest2 with
               | (true, _) => true
               | (false, s2) => ifThenScan s2 (f :: rest2)) := by
            simp only [ifThenScan]
            rw [if_neg (by simp [hq]), if_pos hbr]
            rfl
          have hw0 : wordAt ("IF").data (c :: f :: rest2) 0 = true := by
            simpa [wordAt] using hpre
          cases hit : innerThenScan false rest2 with
          | mk found s2 =>
            cases found
            · -- the inner THEN search failed: the outer scan resumes
              have hfst : (innerThenScan false rest2).1 = false := by rw [hit]
              have hsnd := innerThenScan_snd rest2 false hfst
              rw [hit] at hsnd
              have hq2 : decide ((rest2.count '"') % 2 = 1) = false := by
                rw [← hinv]
                simp [List.count_cons, hq, hfq]
              have hs2 : s2 = false := by simpa [hq2] using hsnd
              have hspec : specHasThen false rest2 = false := by
                rw [← innerThenScan_fst rest2 false, hit]
              have hthen : ∀ j0, (outAt false rest2 j0 &&
                  wordAt ("THEN").data rest2 j0) = false := by
                have h1 : ∀ x, x < rest2.length → outAt false rest2 x = true →
                    wordAt ("THEN").data rest2 x = false := by
                  simpa [specHasThen] using hspec
                intro j0
                by_cases hlt : j0 < rest2.length
                · by_cases hout : outAt false rest2 j0 = true
                  · rw [hout, h1 j0 hlt hout]
                    rfl
                  · rw [Bool.eq_false_iff.mpr hout]
                    rfl
                · have hdrop : rest2.drop j0 = [] :=
                    List.drop_eq_nil_of_le (Nat.le_of_not_lt hlt)
                  simp [wordAt, hdrop, upperL,
                    show ("THEN").data = ['T', 'H', 'E', 'N'] from rfl]
              have hall : ∀ j, (decide (0 < j) &&
                  outAt false (c :: f :: rest2) j &&
                  wordAt ("THEN").data (c :: f :: rest2) j) = false := by
                intro j
                match j with
                | 0 => simp
                | 1 =>
                  have hw1 : wordAt ("THEN").data (c :: f :: rest2) 1 = false := by
                    rw [show (1 : Nat) = 0 + 1 from rfl, wordAt_cons]
                    exact wordAt_cons_zero_ne 'T' (("HEN").data) f rest2 (by
                      intro h
                      rw [← hcf.2] at h
                      exact absurd h (by decide))
                  simp [hw1]
                | j0 + 2 =>
                  have hsh : outAt false (c :: f :: rest2) (j0 + 2) =
                      outAt false rest2 j0 := by
                    rw [show j0 + 2 = (j0 + 1) + 1 from rfl,
                      outAt_cons_other false c _ hq, outAt_cons_other false f _ hfq]
                  have hwsh : wordAt ("THEN").data (c :: f :: rest2) (j0 + 2) =
                      wordAt ("THEN").data rest2 j0 := by
                    rw [show j0 + 2 = (j0 + 1) + 1 from rfl, wordAt_cons, wordAt_cons]
                  rw [hsh, hwsh, Bool.and_assoc]
                  rw [hthen j0]
                  simp
              have hinner : (List.range ((f :: rest2).length + 1)).any (fun j =>
                  decide (0 < j) && outAt false (c :: f :: rest2) j &&
                    wordAt ("THEN").data (c :: f :: rest2) j) = false := by
                rw [List.any_eq_false]
                intro j _
                simp [hall j]
              have hinv3 : decide (((f :: rest2).count '"') % 2 = 1) = false := by
                rw [← hq2]
                simp [List.count_cons, hfq]
              rw [hLHS, hit]
              show ifThenScan s2 (f :: rest2) = containsIfThenRel false (c :: f :: rest2)
              rw [hs2, ih false hinv3]
              rw [ctirel_cons false false c (f :: rest2)
                (outAt_cons_other false c (f :: rest2) hq)]
              rw [hinner]
              simp
            · -- the inner THEN search succeeded: both sides are true
              have hspec : specHasThen false rest2 = true := by
                rw [← innerThenScan_fst rest2 false, hit]
              have hex : ∃ x, x < rest2.length ∧ (outAt false rest2 x = true ∧
                  wordAt ("THEN").data rest2 x = true) := by
                simpa [specHasThen] using hspec
              obtain ⟨j0, hj0lt, hout, hword⟩ := hex
              have hsh : outAt false (c :: f :: rest2) (j0 + 2) =
                  outAt false rest2 j0 := by
                rw [show j0 + 2 = (j0 + 1) + 1 from rfl,
                  outAt_cons_other false c _ hq, outAt_cons_other false f _ hfq]
              have hwsh : wordAt ("THEN").data (c :: f :: rest2) (j0 + 2) =
                  wordAt ("THEN").data rest2 j0 := by
                rw [show j0 + 2 = (j0 + 1) + 1 from rfl, wordAt_cons, wordAt_cons]
              rw [hLHS, hit]
              show true = containsIfThenRel false (c :: f :: rest2)
              symm
              simp only [containsIfThenRel]
              rw [List.any_eq_true]
              refine ⟨0, List.mem_range.mpr (Nat.succ_pos _), ?_⟩
              simp only [Bool.and_eq_true]
              refine ⟨⟨by rw [outAt_zero]; rfl, hw0⟩, ?_⟩
              rw [List.any_eq_true]
              refine ⟨j0 + 2, List.mem_range.mpr (by
                show j0 + 2 < rest2.length + 1 + 1
                omega), ?_⟩
              simp only [Bool.and_eq_true]
              exact ⟨⟨decide_eq_true (by omega), by rw [hsh]; exact hout⟩,
                by rw [hwsh]; exact hword⟩
      · rw [show ifThenScan s (c :: rest) = ifThenScan s rest from by
          simp only [ifThenScan]
          rw [if_neg (by simp [hq]), if_neg hbr]]
        have hinv2 : decide ((rest.count '"') % 2 = 1) = s := by
          rw [← hinv]
          simp [List.count_cons, hq]
        rw [ih s hinv2]
        rw [ctirel_cons s s c rest (outAt_cons_other s c rest hq)]
        have hhead : (outAt s (c :: rest) 0 && wordAt ("IF").data (c :: rest) 0) =
            false := by
          rw [outAt_zero]
          have h2 : (!s && ("IF").data.isPrefixOf (upperL (c :: rest))) = false :=
            Bool.eq_false_iff.mpr hbr
          simpa [wordAt] using h2
        rw [hhead]
        simp

/-- With no incoming string state the relative outside test is the
absolute one. -/
theorem outAt_false (l : List Char) (j : Nat) : outAt false l j = outsideAt l j := by
  rcases Nat.mod_two_eq_zero_or_one ((l.take j).count '"') with h | h <;>
    simp [outAt, outsideAt, h]

/-- With no incoming string state the relative IF-with-THEN predicate
is the spec predicate. -/
theorem ctirel_false (l : List Char) : containsIfThenRel false l = containsIfThen l := by
  unfold containsIfThenRel containsIfThen
  rw [show (fun i => outAt false l i && wordAt ("IF").data l i &&
      (List.range l.length).any (fun j =>
        decide (i < j) && outAt false l j && wordAt ("THEN").data l j)) =
      (fun i => outsideAt l i && wordAt ("IF").data l i &&
        (List.range l.length).any (fun j =>
          decide (i < j) && outsideAt l j && wordAt ("THEN").data l j)) from
    funext (fun i => by
      rw [outAt_false]
      rw [show (fun j => decide (i < j) && outAt false l j &&
          wordAt ("THEN").data l j) =
          (fun j => decide (i < j) && outsideAt l j &&
            wordAt ("THEN").data l j) from funext (fun j => by rw [outAt_false])])]

/-- With no incoming string state the top-level colon positions are
the spec-side filtered positions. -/
theorem topColons_false (l : List Char) :
    topColons false l =
      (List.range l.length).filter (fun i => l.get? i == some ':' && outsideAt l i) := by
  unfold topColons
  rw [show (fun j => l.get? j == some ':' && outAt false l j) =
      (fun i => l.get? i == some ':' && outsideAt l i) from
    funext (fun j => by rw [outAt_false])]

/-- The last-statement extraction of the classifier computes the
spec-side last statement. -/
theorem lastStmt_eq (code : List Char) :
    (match lastColonLoop false 0 none code with
     | some k => pyStrip (code.drop (k + 1))
     | none => pyStrip code) = specLastStmt code := by
  rw [lastColonLoop_eq]
  unfold specLastStmt
  rw [← topColons_false]
  cases (topColons false code).getLast? with
  | none => rfl
  | some j => simp

/-- Folding a two-branch boolean cascade into a disjunction. -/
theorem if_or_bool : ∀ a b c : Bool,
    (if a then true else if b then true else c) = (a || b || c) := by
  decide

/-- Right-trimming never removes a quote character. -/
theorem pyRstrip_count_quote (l : List Char) :
    (pyRstrip l).count '"' = l.count '"' := by
  unfold pyRstrip
  rw [List.count_reverse]
  have hsplit := List.takeWhile_append_dropWhile (p := pyIsSpace) (l := l.reverse)
  have hcount : (l.reverse.takeWhile pyIsSpace).count '"' = 0 := by
    rw [List.count_eq_zero]
    intro hmem
    have := List.mem_takeWhile_imp hmem
    simp [pyIsSpace] at this
  calc (l.reverse.dropWhile pyIsSpace).count '"'
      = (l.reverse.takeWhile pyIsSpace).count '"' +
        (l.reverse.dropWhile pyIsSpace).count '"' := by rw [hcount]; omega
    _ = (l.reverse.takeWhile pyIsSpace ++ l.reverse.dropWhile pyIsSpace).count '"' := by
        rw [List.count_append]
    _ = l.reverse.count '"' := by rw [hsplit]
    _ = l.count '"' := by rw [List.count_reverse]

/-- Claim C4 (corrected): for code containing an even number of quote
characters, the control-flow classifier returns true exactly when, on
the right-trimmed code, the last top-level statement is exactly
RETURN, END or STOP, or begins with GOTO followed (possibly after
whitespace) by a decimal digit, or the code contains IF together with
a later THEN outside strings. -/
theorem claim_C4 (code : List Char) (hq : (code.count '"') % 2 = 0) :
    endsWithControlFlow code = amendedControlFlow code := by
  have hqr : ((pyRstrip code).count '"') % 2 = 0 := by
    rw [pyRstrip_count_quote]
    exact hq
  cases hrv : pyRstrip code with
  | nil =>
    simp only [endsWithControlFlow, amendedControlFlow, hrv]
    decide
  | cons x xs =>
    rw [hrv] at hqr
    have hinv : decide (((x :: xs).count '"') % 2 = 1) = false := by
      have hne : ¬(((x :: xs).count '"') % 2 = 1) := by omega
      exact decide_eq_false hne
    simp only [endsWithControlFlow, amendedControlFlow, hrv]
    rw [if_neg (by simp)]
    rw [lastStmt_eq]
    rw [ifThenScan_eq (x :: xs) false hinv, ctirel_false]
    rw [if_or_bool]

/-- Claim C4 counterexamples: the classifier flags IFA"QIFBTHENC
although no IF has a later THEN outside strings (the failed inner scan
corrupts the string state), and it flags GOTO 1 although the digit
follows GOTO only after a space, not immediately. -/
theorem claim_C4_counterexample :
    (endsWithControlFlow ("IFA\"QIFBTHENC").data = true ∧
      claimControlFlow ("IFA\"QIFBTHENC").data = false) ∧
    (endsWithControlFlow ("GOTO 1").data = true ∧
      claimControlFlow ("GOTO 1").data = false) := by
  decide

/-- Witness for claim C4 at the concrete code GOTO 1. -/
theorem claim_C4_witness :
    ((("GOTO 1").data.count '"') % 2 = 0) ∧
      endsWithControlFlow ("GOTO 1").data = amendedControlFlow ("GOTO 1").data :=
  ⟨by decide, claim_C4 (("GOTO 1").data) (by decide)⟩

/-- The operand-rewriting run equals the spec-side run rule, with the
accumulator made explicit. -/
theorem refRunLoop_spec (fuel : Nat) :
    ∀ (lm : Nat → Option Nat) (acc rem : List Char),
      refRunLoop fuel lm acc rem =
        ((specRefRun fuel lm rem).1.reverse ++ acc, (specRefRun fuel lm rem).2) := by
  induction fuel with
  | zero => intro lm acc rem; rfl
  | succ f ih =>
    intro lm acc rem
    cases rem with
    | nil => rfl
    | cons c rest =>
      simp only [refRunLoop, specRefRun]
      by_cases hd : c.isDigit = true
      · rw [if_pos hd, if_pos hd]
        rw [ih]
        cases hlm : lm (listToNat ((c :: rest).takeWhile Char.isDigit)) <;>
          simp [hlm, List.reverse_append, List.append_assoc]
      · rw [if_neg hd, if_neg hd]
        by_cases hsep : (c == ',' || c == ' ' || c == '\t') = true
        · rw [if_pos hsep, if_pos hsep]
          rw [ih]
          simp
        · rw [if_neg hsep, if_neg hsep]
          simp

/-- The main fixup loop equals the spec-side scan, with the reversed
accumulator made explicit. -/
theorem ulrLoop_spec (fuel : Nat) :
    ∀ (lm : Nat → Option Nat) (inStr : Bool) (acc rem : List Char),
      ulrLoop fuel lm inStr acc rem = (specULRGo fuel lm inStr rem).reverse ++ acc := by
  induction fuel with
  | zero => intro lm inStr acc rem; rfl
  | succ f ih =>
    intro lm inStr acc rem
    cases rem with
    | nil => rfl
    | cons c rest =>
      simp only [ulrLoop, specULRGo]
      by_cases hq : (c == '"') = true
      · rw [if_pos hq, if_pos hq, ih]
        simp
      · rw [if_neg hq, if_neg hq]
        by_cases hs : inStr = true
        · rw [if_pos hs, if_pos hs, ih]
          simp
        · rw [if_neg hs, if_neg hs]
          cases hkw : kwRef (c :: rest) with
          | none =>
            rw [ih]
            simp
          | some klen =>
            show ulrLoop f lm inStr
                (refRunLoop (((c :: rest).drop klen).length + 1) lm
                  (((c :: rest).take klen).reverse ++ acc) ((c :: rest).drop klen)).1
                (refRunLoop (((c :: rest).drop klen).length + 1) lm
                  (((c :: rest).take klen).reverse ++ acc) ((c :: rest).drop klen)).2 =
              ((c :: rest).take klen ++
                (specRefRun (((c :: rest).drop klen).length + 1) lm
                  ((c :: rest).drop klen)).1 ++
                specULRGo f lm inStr
                  (specRefRun (((c :: rest).drop klen).length + 1) lm
                    ((c :: rest).drop klen)).2).reverse ++ acc
            rw [refRunLoop_spec, ih]
            simp [List.reverse_append, List.append_assoc]

/-- Claim C9, amended: for every code line and every line map, the
reference fixup follows the spec-side rule in which each maximal
decimal operand run after a GOTO/GOSUB/THEN/ELSE keyword outside
strings is looked up in the map and, when absent (a dangling
reference), is left numerically unchanged — re-rendered as the decimal
of its own value, so leading zeros are dropped and no error is raised
— while separators and all other text are copied verbatim; the decimal
re-rendering preserves every operand value. -/
theorem claim_C9 (lm : Nat → Option Nat) (code : List Char) :
    updateLineRefs lm code = specUpdateLineRefs lm code ∧
    ∀ n : Nat, listToNat (natToDigits n) = n := by
  constructor
  · unfold updateLineRefs specUpdateLineRefs
    rw [ulrLoop_spec]
    simp
  · exact natToDigits_roundtrip
